import Mathlib

/-!
Verification development for the wirebin repository.

The repository ships one source file, pavement.py, which is packaging and
build scaffolding.  The codec engine itself (wbin.c) is not part of the
checked-in sources, so the codec is modelled here from the specification
text, while the packaging tasks are embedded directly from pavement.py.
-/

namespace Wirebin

/-! ## Embedding of pavement.py -/

/-- One entry of the ext_modules list passed to setup in pavement.py,
mirroring the fields given to the Extension constructor. -/
structure ExtModule where
  name : String
  sources : List String
  include_dirs : List String
  extra_compile_args : List String
deriving DecidableEq

/-- The keyword arguments of the setup call in pavement.py. -/
structure SetupArgs where
  name : String
  description : String
  version : String
  license : String
  author : String
  author_email : String
  ext_modules : List ExtModule
  classifiers : List String

/-- The concrete setup call made at import time by pavement.py. -/
def wirebinSetup : SetupArgs :=
  { name := "wirebin"
  , description := "Fast binary [de]serialization of native python types"
  , version := "1.0.1"
  , license := "bsd"
  , author := "Libor Michalek"
  , author_email := "libor@pobox.com"
  , ext_modules :=
      [ { name := "wbin"
        , sources := ["wbin.c"]
        , include_dirs := ["."]
        , extra_compile_args := ["-Wall"] } ]
  , classifiers :=
      [ "Development Status :: 5 - Production/Stable"
      , "Intended Audience :: Developers"
      , "License :: OSI Approved :: BSD License"
      , "Natural Language :: English"
      , "Operating System :: Unix"
      , "Programming Language :: C"
      , "Topic :: Software Development :: Libraries :: Python Modules" ] }

/-- The MANIFEST tuple of pavement.py. -/
def MANIFEST : List String :=
  ["LICENSE", "setup.py", "paver-minilib.zip", "wbin.c"]

/-- The manifest task of pavement.py: write_lines overwrites MANIFEST.in with
one include line per MANIFEST entry, ignoring the previous file contents. -/
def manifestTask (_oldLines : List String) : List String :=
  MANIFEST.map (fun x => "include " ++ x)

/-- The errno.EACCES error code used by the clean task. -/
def EACCES : Nat := 13

/-- Outcome of one p.remove() call in the clean task: success, or an OSError
carrying its first args entry. -/
inductive RemoveResult : Type where
  | removed : RemoveResult
  | oserror (code : Nat) : RemoveResult

/-- Test from the clean task: the file name ends in .pyc or .pyo. -/
def isBytecode (f : String) : Bool :=
  ".pyc".data.isSuffixOf f.data || ".pyo".data.isSuffixOf f.data

/-- Second loop of the clean task of pavement.py: walk the files, remove the
bytecode ones, suppress an OSError whose first argument is errno.EACCES and
keep going, and re-raise any other OSError.  The result is the list of files
still present after the sweep, or the propagated error code. -/
def sweepBytecode (remove : String → RemoveResult) : List String → Except Nat (List String)
  | [] => .ok []
  | f :: rest =>
    if isBytecode f then
      match remove f with
      | .removed => sweepBytecode remove rest
      | .oserror c =>
        if c = EACCES then
          match sweepBytecode remove rest with
          | .ok fs => .ok (f :: fs)
          | .error e => .error e
        else .error c
    else
      match sweepBytecode remove rest with
      | .ok fs => .ok (f :: fs)
      | .error e => .error e

/-- The four paths targeted by the first loop of the clean task. -/
def cleanTargets : List String :=
  ["wirebin.egg-info", "dist", "build", "MANIFEST.in"]

/-- A path f lies strictly under directory d. -/
def underDir (f d : String) : Bool :=
  (d ++ "/").data.isPrefixOf f.data

/-- One iteration of the first clean loop: if the target is a directory it is
removed recursively by rmtree, otherwise the single path is removed. -/
def removeTarget (isdir : String → Bool) (p : String) (fs : List String) : List String :=
  if isdir p then fs.filter (fun f => !(f == p || underDir f p))
  else fs.filter (fun f => !(f == p))

/-- First loop of the clean task, over the four fixed targets. -/
def removeTargets (isdir : String → Bool) (fs : List String) : List String :=
  cleanTargets.foldl (fun acc p => removeTarget isdir p acc) fs

/-- Boolean form of being hit by the first clean loop. -/
def hitByTargets (isdir : String → Bool) (f : String) : Bool :=
  cleanTargets.any (fun p => f == p || (isdir p && underDir f p))

/-- The clean task of pavement.py on a file system given as the list of file
paths: first the four fixed targets are removed, then the files under the
pavement directory are swept for bytecode files. -/
def cleanTask (pav : String) (isdir : String → Bool) (remove : String → RemoveResult)
    (fs : List String) : Except Nat (List String) :=
  let fs1 := removeTargets isdir fs
  match sweepBytecode remove (fs1.filter (fun f => underDir f pav)) with
  | .error e => .error e
  | .ok kept => .ok (fs1.filter (fun f => !underDir f pav) ++ kept)

/-! ## The codec, modelled from the specification

The codec source wbin.c is not among the checked-in files, so the wire
format, the encoder and the decoder below are modelled from the
specification text (tagged bytes, length prefixes, narrowest-fit integers,
UTF-8 text, little-endian multi-byte fields, whole-input decoding). -/

/-- Modelled from the spec: the abstract Value variant set of the missing
codec wbin.c.  Float carries the IEEE-754 double bit pattern, Text carries
Unicode scalar values, Bytes carries raw octets. -/
inductive Value : Type where
  | nil : Value
  | bool (b : Bool) : Value
  | int (n : ℤ) : Value
  | float (bits : Nat) : Value
  | bytes (bs : List Nat) : Value
  | text (cs : List Nat) : Value
  | seq (vs : List Value) : Value
  | map (ps : List (Value × Value)) : Value

/-- Modelled from the spec: tag byte for Nil. -/
def TAG_NIL : Nat := 0
/-- Modelled from the spec: tag byte for Bool false. -/
def TAG_FALSE : Nat := 1
/-- Modelled from the spec: tag byte for Bool true. -/
def TAG_TRUE : Nat := 2
/-- Modelled from the spec: tag byte for an 8-bit signed integer. -/
def TAG_INT8 : Nat := 3
/-- Modelled from the spec: tag byte for a 16-bit signed integer. -/
def TAG_INT16 : Nat := 4
/-- Modelled from the spec: tag byte for a 32-bit signed integer. -/
def TAG_INT32 : Nat := 5
/-- Modelled from the spec: tag byte for a 64-bit signed integer. -/
def TAG_INT64 : Nat := 6
/-- Modelled from the spec: tag byte for a Float. -/
def TAG_FLOAT : Nat := 7
/-- Modelled from the spec: tag byte for Bytes. -/
def TAG_BYTES : Nat := 8
/-- Modelled from the spec: tag byte for Text. -/
def TAG_TEXT : Nat := 9
/-- Modelled from the spec: tag byte for a Sequence. -/
def TAG_SEQ : Nat := 10
/-- Modelled from the spec: tag byte for a Mapping. -/
def TAG_MAP : Nat := 11

/-- Modelled from the spec: little-endian byte emission of a k-byte
unsigned integer field of the missing codec. -/
def natLE : Nat → Nat → List Nat
  | 0, _ => []
  | k + 1, m => m % 256 :: natLE k (m / 256)

/-- Modelled from the spec: little-endian read of a k-byte unsigned integer
field; none when fewer than k bytes remain. -/
def readLE : Nat → List Nat → Option (Nat × List Nat)
  | 0, s => some (0, s)
  | _ + 1, [] => none
  | k + 1, b :: s => (readLE k s).map (fun mr => (b + 256 * mr.1, mr.2))

/-- Modelled from the spec: two-complement image of a signed integer in a
w-bit field. -/
def intToTwos (w : Nat) (n : ℤ) : Nat :=
  (n % ((2 : ℤ) ^ w)).toNat

/-- Modelled from the spec: sign extension of a w-bit field back to the
abstract unbounded integer. -/
def intFromTwos (w : Nat) (m : Nat) : ℤ :=
  if m < 2 ^ (w - 1) then (m : ℤ) else (m : ℤ) - 2 ^ w

/-- Modelled from the spec: narrowest-fit width, in bits, chosen by the
encoder for a signed integer. -/
def intWidth (n : ℤ) : Nat :=
  if -128 ≤ n ∧ n < 128 then 8
  else if -32768 ≤ n ∧ n < 32768 then 16
  else if -2147483648 ≤ n ∧ n < 2147483648 then 32
  else 64

/-- Modelled from the spec: the tag byte paired with each integer width. -/
def intTagOfWidth (w : Nat) : Nat :=
  if w = 8 then TAG_INT8
  else if w = 16 then TAG_INT16
  else if w = 32 then TAG_INT32
  else TAG_INT64

/-- Modelled from the spec: integer encoding under the narrowest-fit rule. -/
def encodeInt (n : ℤ) : List Nat :=
  intTagOfWidth (intWidth n) :: natLE (intWidth n / 8) (intToTwos (intWidth n) n)

/-- Modelled from the spec: a Unicode scalar value, below 0x110000 and not a
surrogate. -/
def isScalar (c : Nat) : Bool :=
  c < 1114112 && !(55296 ≤ c && c < 57344)

/-- Modelled from the spec: UTF-8 encoding of one Unicode scalar value. -/
def utf8EncodeChar (c : Nat) : List Nat :=
  if c < 128 then [c]
  else if c < 2048 then [192 + c / 64, 128 + c % 64]
  else if c < 65536 then [224 + c / 4096, 128 + c / 64 % 64, 128 + c % 64]
  else [240 + c / 262144, 128 + c / 4096 % 64, 128 + c / 64 % 64, 128 + c % 64]

/-- Modelled from the spec: UTF-8 encoding of a Text payload. -/
def utf8Encode (cs : List Nat) : List Nat :=
  cs.foldr (fun c acc => utf8EncodeChar c ++ acc) []

/-- Modelled from the spec: a UTF-8 continuation byte. -/
def contByte (b : Nat) : Bool :=
  128 ≤ b && b < 192

/-- Modelled from the spec: strict UTF-8 decoding of a Text payload, one
byte at a time; pend counts the continuation bytes still expected, acc is
the partial code point, and lo is the least value the finished code point
may take, rejecting overlong forms, surrogates, stray or missing
continuation bytes and out-of-range code points. -/
def utf8Aux : Nat → Nat → Nat → List Nat → Option (List Nat)
  | 0, _, _, [] => some []
  | _ + 1, _, _, [] => none
  | 0, _, _, b :: rest =>
    if b < 128 then (utf8Aux 0 0 0 rest).map (fun cs => b :: cs)
    else if b < 194 then none
    else if b < 224 then utf8Aux 1 (b - 192) 128 rest
    else if b < 240 then utf8Aux 2 (b - 224) 2048 rest
    else if b < 245 then utf8Aux 3 (b - 240) 65536 rest
    else none
  | pend + 1, acc, lo, b :: rest =>
    if contByte b then
      if pend = 0 then
        if lo ≤ acc * 64 + (b - 128) && isScalar (acc * 64 + (b - 128)) then
          (utf8Aux 0 0 0 rest).map (fun cs => (acc * 64 + (b - 128)) :: cs)
        else none
      else utf8Aux pend (acc * 64 + (b - 128)) lo rest
    else none

/-- Modelled from the spec: strict UTF-8 decoding of a whole Text payload. -/
def utf8DecodeAll (s : List Nat) : Option (List Nat) :=
  utf8Aux 0 0 0 s

mutual

/-- Modelled from the spec: the recursive encoder of the missing codec
wbin.c, emitting a tag byte followed by the payload, with 32-bit
little-endian length and count prefixes. -/
def encode : Value → List Nat
  | .nil => [TAG_NIL]
  | .bool false => [TAG_FALSE]
  | .bool true => [TAG_TRUE]
  | .int n => encodeInt n
  | .float m => TAG_FLOAT :: natLE 8 m
  | .bytes bs => TAG_BYTES :: (natLE 4 bs.length ++ bs)
  | .text cs => TAG_TEXT :: (natLE 4 (utf8Encode cs).length ++ utf8Encode cs)
  | .seq vs => TAG_SEQ :: (natLE 4 vs.length ++ encodeList vs)
  | .map ps => TAG_MAP :: (natLE 4 ps.length ++ encodePairs ps)

/-- Modelled from the spec: concatenated encodings of the elements of a
Sequence. -/
def encodeList : List Value → List Nat
  | [] => []
  | v :: vs => encode v ++ encodeList vs

/-- Modelled from the spec: concatenated key and value encodings of the
pairs of a Mapping. -/
def encodePairs : List (Value × Value) → List Nat
  | [] => []
  | (k, v) :: ps => encode k ++ (encode v ++ encodePairs ps)

end

mutual

/-- Modelled from the spec: a Value the caller may hand to the encoder, with
integers in the 64-bit range, float bit patterns in 64 bits, byte payloads
made of octets, text made of Unicode scalar values, and every length or
count representable in the 32-bit prefix field. -/
def Value.validb : Value → Bool
  | .nil => true
  | .bool _ => true
  | .int n => decide (-9223372036854775808 ≤ n) && decide (n < 9223372036854775808)
  | .float m => decide (m < 18446744073709551616)
  | .bytes bs => decide (bs.length < 4294967296) && bs.all (fun b => b < 256)
  | .text cs => decide ((utf8Encode cs).length < 4294967296) && cs.all isScalar
  | .seq vs => decide (vs.length < 4294967296) && validList vs
  | .map ps => decide (ps.length < 4294967296) && validPairs ps

/-- Modelled from the spec: validity of every element of a Sequence. -/
def validList : List Value → Bool
  | [] => true
  | v :: vs => Value.validb v && validList vs

/-- Modelled from the spec: validity of every key and value of a Mapping. -/
def validPairs : List (Value × Value) → Bool
  | [] => true
  | (k, v) :: ps => Value.validb k && (Value.validb v && validPairs ps)

end

/-- Modelled from the spec: the decode-side failure conditions detected
while parsing one Value (TrailingData is detected only at top level). -/
inductive ParseError : Type where
  | truncated : ParseError
  | unknownTag : ParseError
  | invalidText : ParseError
deriving DecidableEq

/-- Modelled from the spec: the four decode-side error kinds. -/
inductive DecodeError : Type where
  | TruncatedInput : DecodeError
  | UnknownTag : DecodeError
  | InvalidText : DecodeError
  | TrailingData : DecodeError
deriving DecidableEq

/-- Modelled from the spec: the outcome of one parsing step, a value plus
the unconsumed remainder, or a failure. -/
abbrev ParseResult (α : Type) : Type := Except ParseError (α × List Nat)

/-- Modelled from the spec: read a k-byte integer payload and sign-extend
from w bits. -/
def readIntPayload (k w : Nat) (s : List Nat) : ParseResult Value :=
  match readLE k s with
  | none => .error .truncated
  | some (m, r) => .ok (.int (intFromTwos w m), r)

/-- Modelled from the spec: read the 8-byte Float bit pattern. -/
def readFloatPayload (s : List Nat) : ParseResult Value :=
  match readLE 8 s with
  | none => .error .truncated
  | some (m, r) => .ok (.float m, r)

/-- Modelled from the spec: read a length-prefixed Bytes payload. -/
def readBytesPayload (s : List Nat) : ParseResult Value :=
  match readLE 4 s with
  | none => .error .truncated
  | some (len, r) =>
    if len ≤ r.length then .ok (.bytes (r.take len), r.drop len)
    else .error .truncated

/-- Modelled from the spec: read a length-prefixed Text payload and decode
it as UTF-8, rejecting invalid byte sequences. -/
def readTextPayload (s : List Nat) : ParseResult Value :=
  match readLE 4 s with
  | none => .error .truncated
  | some (len, r) =>
    if len ≤ r.length then
      match utf8DecodeAll (r.take len) with
      | none => .error .invalidText
      | some cs => .ok (.text cs, r.drop len)
    else .error .truncated

/-- Modelled from the spec: decode a declared number of consecutive child
Values; the parameter d decodes one child, returning none when the fuel of
the caller is exhausted. -/
def decodeListF (d : List Nat → Option (ParseResult Value)) :
    Nat → List Nat → Option (ParseResult (List Value))
  | 0, s => some (.ok ([], s))
  | n + 1, s =>
    match d s with
    | none => none
    | some (.error e) => some (.error e)
    | some (.ok (v, r)) =>
      match decodeListF d n r with
      | none => none
      | some (.error e) => some (.error e)
      | some (.ok (vs, r2)) => some (.ok (v :: vs, r2))

/-- Modelled from the spec: decode a declared number of consecutive
key-value pairs of a Mapping. -/
def decodePairsF (d : List Nat → Option (ParseResult Value)) :
    Nat → List Nat → Option (ParseResult (List (Value × Value)))
  | 0, s => some (.ok ([], s))
  | n + 1, s =>
    match d s with
    | none => none
    | some (.error e) => some (.error e)
    | some (.ok (k, r1)) =>
      match d r1 with
      | none => none
      | some (.error e) => some (.error e)
      | some (.ok (v, r2)) =>
        match decodePairsF d n r2 with
        | none => none
        | some (.error e) => some (.error e)
        | some (.ok (ps, r3)) => some (.ok ((k, v) :: ps, r3))

/-- Modelled from the spec: read a count-prefixed Sequence payload. -/
def decodeSeqPayload (d : List Nat → Option (ParseResult Value)) (s : List Nat) :
    Option (ParseResult Value) :=
  match readLE 4 s with
  | none => some (.error .truncated)
  | some (n, r) =>
    match decodeListF d n r with
    | none => none
    | some (.error e) => some (.error e)
    | some (.ok (vs, r2)) => some (.ok (.seq vs, r2))

/-- Modelled from the spec: read a pair-count-prefixed Mapping payload. -/
def decodeMapPayload (d : List Nat → Option (ParseResult Value)) (s : List Nat) :
    Option (ParseResult Value) :=
  match readLE 4 s with
  | none => some (.error .truncated)
  | some (n, r) =>
    match decodePairsF d n r with
    | none => none
    | some (.error e) => some (.error e)
    | some (.ok (ps, r2)) => some (.ok (.map ps, r2))

/-- Modelled from the spec: dispatch on one tag byte t and parse the
corresponding payload from s, using d for child Values of containers. -/
def decodeHead (d : List Nat → Option (ParseResult Value)) (t : Nat) (s : List Nat) :
    Option (ParseResult Value) :=
  if t = TAG_NIL then some (.ok (.nil, s))
  else if t = TAG_FALSE then some (.ok (.bool false, s))
  else if t = TAG_TRUE then some (.ok (.bool true, s))
  else if t = TAG_INT8 then some (readIntPayload 1 8 s)
  else if t = TAG_INT16 then some (readIntPayload 2 16 s)
  else if t = TAG_INT32 then some (readIntPayload 4 32 s)
  else if t = TAG_INT64 then some (readIntPayload 8 64 s)
  else if t = TAG_FLOAT then some (readFloatPayload s)
  else if t = TAG_BYTES then some (readBytesPayload s)
  else if t = TAG_TEXT then some (readTextPayload s)
  else if t = TAG_SEQ then decodeSeqPayload d s
  else if t = TAG_MAP then decodeMapPayload d s
  else some (.error .unknownTag)

/-- Modelled from the spec: fuelled parser for one Value, reading the tag
byte and dispatching; none means the fuel ran out, which never happens when
the fuel exceeds the input length. -/
def decodeValueF : Nat → List Nat → Option (ParseResult Value)
  | 0, _ => none
  | f + 1, s =>
    match s with
    | [] => some (.error .truncated)
    | t :: s0 => decodeHead (decodeValueF f) t s0

/-- Modelled from the spec: the top-level decoder of the missing codec
wbin.c, consuming the whole input as exactly one Value and classifying the
failure, with TrailingData when bytes remain after the top-level Value. -/
def decode (s : List Nat) : Except DecodeError Value :=
  match decodeValueF (s.length + 1) s with
  | none => .error .TruncatedInput
  | some (.error .truncated) => .error .TruncatedInput
  | some (.error .unknownTag) => .error .UnknownTag
  | some (.error .invalidText) => .error .InvalidText
  | some (.ok (v, [])) => .ok v
  | some (.ok (_, _ :: _)) => .error .TrailingData

/-- Modelled from the spec: the range of a w-bit signed integer field
exactly contains n. -/
def fitsWidth (w : Nat) (n : ℤ) : Prop :=
  -(2 ^ (w - 1)) ≤ n ∧ n < 2 ^ (w - 1)

/-- Induction principle for Value that hands membership hypotheses for the
elements of Sequence and Mapping nodes. -/
def value_ind (P : Value → Prop)
    (hnil : P .nil) (hbool : ∀ b, P (.bool b)) (hint : ∀ n, P (.int n))
    (hfloat : ∀ m, P (.float m)) (hbytes : ∀ bs, P (.bytes bs))
    (htext : ∀ cs, P (.text cs))
    (hseq : ∀ vs, (∀ v, v ∈ vs → P v) → P (.seq vs))
    (hmap : ∀ ps, (∀ q, q ∈ ps → P q.1 ∧ P q.2) → P (.map ps)) :
    ∀ v, P v := fun v =>
  match v with
  | .nil => hnil
  | .bool b => hbool b
  | .int n => hint n
  | .float m => hfloat m
  | .bytes bs => hbytes bs
  | .text cs => htext cs
  | .seq vs => hseq vs (fun v hv =>
      value_ind P hnil hbool hint hfloat hbytes htext hseq hmap v)
  | .map ps => hmap ps (fun q hq =>
      ⟨value_ind P hnil hbool hint hfloat hbytes htext hseq hmap q.1,
       value_ind P hnil hbool hint hfloat hbytes htext hseq hmap q.2⟩)
termination_by v => sizeOf v
decreasing_by
  · exact Nat.lt_trans (List.sizeOf_lt_of_mem hv) (by simp)
  · obtain ⟨a, b⟩ := q
    have := List.sizeOf_lt_of_mem hq
    simp at this ⊢
    omega
  · obtain ⟨a, b⟩ := q
    have := List.sizeOf_lt_of_mem hq
    simp at this ⊢
    omega

/-! ## Little-endian field lemmas -/

theorem natLE_length (k m : Nat) : (natLE k m).length = k := by
  induction k generalizing m with
  | zero => simp [natLE]
  | succ k ih => simp [natLE, ih]

theorem readLE_natLE (k m : Nat) (rest : List Nat) :
    readLE k (natLE k m ++ rest) = some (m % 256 ^ k, rest) := by
  induction k generalizing m with
  | zero => simp [natLE, readLE, Nat.mod_one]
  | succ k ih =>
    have h : (256 : ℕ) ^ (k + 1) = 256 * 256 ^ k := by ring
    have hrec := ih (m / 256)
    simp only [natLE, List.cons_append, readLE]
    simp only [List.append_eq, hrec, Option.map]
    rw [h, Nat.mod_mul]

theorem readLE_natLE_of_lt (k m : Nat) (rest : List Nat) (h : m < 256 ^ k) :
    readLE k (natLE k m ++ rest) = some (m, rest) := by
  rw [readLE_natLE, Nat.mod_eq_of_lt h]

theorem readLE_split (k : Nat) : ∀ s m r, readLE k s = some (m, r) →
    ∃ c, s = c ++ r ∧ c.length = k ∧ ∀ t, readLE k (c ++ t) = some (m, t) := by
  induction k with
  | zero =>
    intro s m r h
    simp only [readLE, Option.some.injEq, Prod.mk.injEq] at h
    exact ⟨[], by simp [h, readLE]⟩
  | succ k ih =>
    intro s m r h
    match s with
    | [] => simp [readLE] at h
    | b :: s0 =>
      simp only [readLE] at h
      cases hrd : readLE k s0 with
      | none => rw [hrd] at h; simp at h
      | some mr =>
        obtain ⟨m0, r0⟩ := mr
        rw [hrd] at h
        simp at h
        obtain ⟨hm, hr⟩ := h
        obtain ⟨c0, hs0, hlen, hall⟩ := ih s0 m0 r0 hrd
        subst hr
        refine ⟨b :: c0, by simp [hs0], by simp [hlen], fun t => ?_⟩
        simp [readLE, hall t, ← hm]

/-! ## Two-complement lemmas -/

theorem intToTwos_lt (w : Nat) (n : ℤ) : intToTwos w n < 2 ^ w := by
  unfold intToTwos
  have h1 : (0 : ℤ) < 2 ^ w := by positivity
  have h2 := Int.emod_nonneg n (ne_of_gt h1)
  have h3 := Int.emod_lt_of_pos n h1
  have hc : ((2 ^ w : ℕ) : ℤ) = (2 : ℤ) ^ w := by push_cast; ring
  omega

theorem intFromTwos_intToTwos (w : Nat) (n : ℤ)
    (h1 : -(2 ^ w) ≤ n) (h2 : n < 2 ^ w) :
    intFromTwos (w + 1) (intToTwos (w + 1) n) = n := by
  unfold intToTwos intFromTwos
  simp only [Nat.add_sub_cancel]
  have hP : (0 : ℤ) < 2 ^ w := by positivity
  have hM : (2 : ℤ) ^ (w + 1) = 2 * 2 ^ w := by ring
  have hc : ((2 ^ w : ℕ) : ℤ) = (2 : ℤ) ^ w := by push_cast; ring
  rcases le_or_lt 0 n with hn | hn
  · have hmod : n % (2 : ℤ) ^ (w + 1) = n := Int.emod_eq_of_lt hn (by omega)
    rw [hmod]
    split <;> omega
  · have hmod : n % (2 : ℤ) ^ (w + 1) = n + 2 ^ (w + 1) := by
      have e1 : (n + 2 ^ (w + 1) * 1) % (2 : ℤ) ^ (w + 1) = n % 2 ^ (w + 1) :=
        Int.add_mul_emod_self_left ..
      rw [mul_one] at e1
      have e2 : (n + 2 ^ (w + 1)) % (2 : ℤ) ^ (w + 1) = n + 2 ^ (w + 1) :=
        Int.emod_eq_of_lt (by omega) (by omega)
      omega
    rw [hmod]
    split <;> omega

/-! ## UTF-8 lemmas -/

theorem utf8_step (c : Nat) (h : isScalar c = true) (u : List Nat) :
    utf8DecodeAll (utf8EncodeChar c ++ u) =
      (utf8DecodeAll u).map (fun cs => c :: cs) := by
  simp only [isScalar, Bool.and_eq_true, decide_eq_true_eq, Bool.not_eq_true',
    Bool.and_eq_false_iff, decide_eq_false_iff_not, not_le, not_lt] at h
  by_cases hA : c < 128
  · rw [utf8EncodeChar, if_pos hA]
    simp only [List.cons_append, List.nil_append, List.append_eq, utf8DecodeAll]
    rw [utf8Aux.eq_3, if_pos hA]
  · by_cases hB : c < 2048
    · rw [utf8EncodeChar, if_neg hA, if_pos hB]
      simp only [List.cons_append, List.nil_append, List.append_eq, utf8DecodeAll]
      rw [utf8Aux.eq_3, if_neg (show ¬(192 + c / 64 < 128) by omega),
          if_neg (show ¬(192 + c / 64 < 194) by omega),
          if_pos (show 192 + c / 64 < 224 by omega)]
      simp only [utf8Aux]
      rw [show (192 + c / 64 - 192) * 64 + (128 + c % 64 - 128) = c from by omega]
      rw [if_pos (show contByte (128 + c % 64) = true from by
            simp only [contByte, Bool.and_eq_true, decide_eq_true_eq]; omega)]
      rw [if_pos trivial]
      rw [if_pos (show (decide (128 ≤ c) && isScalar c) = true from by
            simp only [isScalar, Bool.and_eq_true, decide_eq_true_eq, Bool.not_eq_true',
              Bool.and_eq_false_iff, decide_eq_false_iff_not]; omega)]
    · by_cases hC : c < 65536
      · rw [utf8EncodeChar, if_neg hA, if_neg hB, if_pos hC]
        simp only [List.cons_append, List.nil_append, List.append_eq, utf8DecodeAll]
        rw [utf8Aux.eq_3, if_neg (show ¬(224 + c / 4096 < 128) by omega),
            if_neg (show ¬(224 + c / 4096 < 194) by omega),
            if_neg (show ¬(224 + c / 4096 < 224) by omega),
            if_pos (show 224 + c / 4096 < 240 by omega)]
        simp only [utf8Aux]
        rw [if_pos (show contByte (128 + c / 64 % 64) = true from by
              simp only [contByte, Bool.and_eq_true, decide_eq_true_eq]; omega),
            if_neg (show ¬(1 = 0) by omega),
            if_pos (show contByte (128 + c % 64) = true from by
              simp only [contByte, Bool.and_eq_true, decide_eq_true_eq]; omega),
            if_pos trivial]
        rw [show ((224 + c / 4096 - 224) * 64 + (128 + c / 64 % 64 - 128)) * 64 +
              (128 + c % 64 - 128) = c from by omega]
        rw [if_pos (show (decide (2048 ≤ c) && isScalar c) = true from by
              simp only [isScalar, Bool.and_eq_true, decide_eq_true_eq, Bool.not_eq_true',
                Bool.and_eq_false_iff, decide_eq_false_iff_not]; omega)]
      · rw [utf8EncodeChar, if_neg hA, if_neg hB, if_neg hC]
        simp only [List.cons_append, List.nil_append, List.append_eq, utf8DecodeAll]
        rw [utf8Aux.eq_3, if_neg (show ¬(240 + c / 262144 < 128) by omega),
            if_neg (show ¬(240 + c / 262144 < 194) by omega),
            if_neg (show ¬(240 + c / 262144 < 224) by omega),
            if_neg (show ¬(240 + c / 262144 < 240) by omega),
            if_pos (show 240 + c / 262144 < 245 by omega)]
        simp only [utf8Aux]
        rw [if_pos (show contByte (128 + c / 4096 % 64) = true from by
              simp only [contByte, Bool.and_eq_true, decide_eq_true_eq]; omega),
            if_neg (show ¬(2 = 0) by omega),
            if_pos (show contByte (128 + c / 64 % 64) = true from by
              simp only [contByte, Bool.and_eq_true, decide_eq_true_eq]; omega),
            if_neg (show ¬(1 = 0) by omega),
            if_pos (show contByte (128 + c % 64) = true from by
              simp only [contByte, Bool.and_eq_true, decide_eq_true_eq]; omega),
            if_pos trivial]
        rw [show (((240 + c / 262144 - 240) * 64 + (128 + c / 4096 % 64 - 128)) * 64 +
              (128 + c / 64 % 64 - 128)) * 64 + (128 + c % 64 - 128) = c from by omega]
        rw [if_pos (show (decide (65536 ≤ c) && isScalar c) = true from by
              simp only [isScalar, Bool.and_eq_true, decide_eq_true_eq, Bool.not_eq_true',
                Bool.and_eq_false_iff, decide_eq_false_iff_not]; omega)]

theorem utf8DecodeAll_encode (cs : List Nat) (h : cs.all isScalar = true) :
    utf8DecodeAll (utf8Encode cs) = some cs := by
  induction cs with
  | nil => simp [utf8Encode, utf8DecodeAll, utf8Aux.eq_1]
  | cons c cs ih =>
    simp only [List.all_cons, Bool.and_eq_true] at h
    have hcons : utf8Encode (c :: cs) = utf8EncodeChar c ++ utf8Encode cs := rfl
    rw [hcons, utf8_step c h.1, ih h.2]
    simp [Option.map]

/-! ## Dispatch lemmas for decodeHead -/

theorem decodeHead_tag0 (d : List Nat → Option (ParseResult Value)) (s : List Nat) :
    decodeHead d 0 s = some (.ok (.nil, s)) := by
  simp [decodeHead, TAG_NIL]

theorem decodeHead_tag1 (d : List Nat → Option (ParseResult Value)) (s : List Nat) :
    decodeHead d 1 s = some (.ok (.bool false, s)) := by
  simp [decodeHead, TAG_NIL, TAG_FALSE]

theorem decodeHead_tag2 (d : List Nat → Option (ParseResult Value)) (s : List Nat) :
    decodeHead d 2 s = some (.ok (.bool true, s)) := by
  simp [decodeHead, TAG_NIL, TAG_FALSE, TAG_TRUE]

theorem decodeHead_tag3 (d : List Nat → Option (ParseResult Value)) (s : List Nat) :
    decodeHead d 3 s = some (readIntPayload 1 8 s) := by
  simp [decodeHead, TAG_NIL, TAG_FALSE, TAG_TRUE, TAG_INT8]

theorem decodeHead_tag4 (d : List Nat → Option (ParseResult Value)) (s : List Nat) :
    decodeHead d 4 s = some (readIntPayload 2 16 s) := by
  simp [decodeHead, TAG_NIL, TAG_FALSE, TAG_TRUE, TAG_INT8, TAG_INT16]

theorem decodeHead_tag5 (d : List Nat → Option (ParseResult Value)) (s : List Nat) :
    decodeHead d 5 s = some (readIntPayload 4 32 s) := by
  simp [decodeHead, TAG_NIL, TAG_FALSE, TAG_TRUE, TAG_INT8, TAG_INT16, TAG_INT32]

theorem decodeHead_tag6 (d : List Nat → Option (ParseResult Value)) (s : List Nat) :
    decodeHead d 6 s = some (readIntPayload 8 64 s) := by
  simp [decodeHead, TAG_NIL, TAG_FALSE, TAG_TRUE, TAG_INT8, TAG_INT16, TAG_INT32, TAG_INT64]

theorem decodeHead_tag7 (d : List Nat → Option (ParseResult Value)) (s : List Nat) :
    decodeHead d 7 s = some (readFloatPayload s) := by
  simp [decodeHead, TAG_NIL, TAG_FALSE, TAG_TRUE, TAG_INT8, TAG_INT16, TAG_INT32, TAG_INT64,
    TAG_FLOAT]

theorem decodeHead_tag8 (d : List Nat → Option (ParseResult Value)) (s : List Nat) :
    decodeHead d 8 s = some (readBytesPayload s) := by
  simp [decodeHead, TAG_NIL, TAG_FALSE, TAG_TRUE, TAG_INT8, TAG_INT16, TAG_INT32, TAG_INT64,
    TAG_FLOAT, TAG_BYTES]

theorem decodeHead_tag9 (d : List Nat → Option (ParseResult Value)) (s : List Nat) :
    decodeHead d 9 s = some (readTextPayload s) := by
  simp [decodeHead, TAG_NIL, TAG_FALSE, TAG_TRUE, TAG_INT8, TAG_INT16, TAG_INT32, TAG_INT64,
    TAG_FLOAT, TAG_BYTES, TAG_TEXT]

theorem decodeHead_tag10 (d : List Nat → Option (ParseResult Value)) (s : List Nat) :
    decodeHead d 10 s = decodeSeqPayload d s := by
  simp [decodeHead, TAG_NIL, TAG_FALSE, TAG_TRUE, TAG_INT8, TAG_INT16, TAG_INT32, TAG_INT64,
    TAG_FLOAT, TAG_BYTES, TAG_TEXT, TAG_SEQ]

theorem decodeHead_tag11 (d : List Nat → Option (ParseResult Value)) (s : List Nat) :
    decodeHead d 11 s = decodeMapPayload d s := by
  simp [decodeHead, TAG_NIL, TAG_FALSE, TAG_TRUE, TAG_INT8, TAG_INT16, TAG_INT32, TAG_INT64,
    TAG_FLOAT, TAG_BYTES, TAG_TEXT, TAG_SEQ, TAG_MAP]

theorem decodeHead_unknown (d : List Nat → Option (ParseResult Value)) (t : Nat)
    (s : List Nat) (h : 12 ≤ t) : decodeHead d t s = some (.error .unknownTag) := by
  unfold decodeHead
  rw [if_neg (by simp [TAG_NIL]; omega), if_neg (by simp [TAG_FALSE]; omega),
    if_neg (by simp [TAG_TRUE]; omega), if_neg (by simp [TAG_INT8]; omega),
    if_neg (by simp [TAG_INT16]; omega), if_neg (by simp [TAG_INT32]; omega),
    if_neg (by simp [TAG_INT64]; omega), if_neg (by simp [TAG_FLOAT]; omega),
    if_neg (by simp [TAG_BYTES]; omega), if_neg (by simp [TAG_TEXT]; omega),
    if_neg (by simp [TAG_SEQ]; omega), if_neg (by simp [TAG_MAP]; omega)]

/-! ## Encoder basics -/

theorem encode_length_pos (v : Value) : 0 < (encode v).length := by
  cases v with
  | nil => simp [encode]
  | bool b => cases b <;> simp [encode]
  | int n => simp [encode, encodeInt]
  | float m => simp [encode]
  | bytes bs => simp [encode]
  | text cs => simp [encode]
  | seq vs => simp [encode]
  | map ps => simp [encode]

/-! ## Round-trip lemmas -/

theorem decodeValueF_cons (f t : Nat) (s : List Nat) :
    decodeValueF (f + 1) (t :: s) = decodeHead (decodeValueF f) t s := rfl

theorem encodeInt_eq8 (n : ℤ) (h : -128 ≤ n ∧ n < 128) :
    encodeInt n = 3 :: natLE 1 (intToTwos 8 n) := by
  unfold encodeInt intWidth
  rw [if_pos h]
  rfl

theorem encodeInt_eq16 (n : ℤ) (h8 : ¬(-128 ≤ n ∧ n < 128)) (h : -32768 ≤ n ∧ n < 32768) :
    encodeInt n = 4 :: natLE 2 (intToTwos 16 n) := by
  unfold encodeInt intWidth
  rw [if_neg h8, if_pos h]
  rfl

theorem encodeInt_eq32 (n : ℤ) (h8 : ¬(-128 ≤ n ∧ n < 128))
    (h16 : ¬(-32768 ≤ n ∧ n < 32768)) (h : -2147483648 ≤ n ∧ n < 2147483648) :
    encodeInt n = 5 :: natLE 4 (intToTwos 32 n) := by
  unfold encodeInt intWidth
  rw [if_neg h8, if_neg h16, if_pos h]
  rfl

theorem encodeInt_eq64 (n : ℤ) (h8 : ¬(-128 ≤ n ∧ n < 128))
    (h16 : ¬(-32768 ≤ n ∧ n < 32768)) (h32 : ¬(-2147483648 ≤ n ∧ n < 2147483648)) :
    encodeInt n = 6 :: natLE 8 (intToTwos 64 n) := by
  unfold encodeInt intWidth
  rw [if_neg h8, if_neg h16, if_neg h32]
  rfl

theorem decodeValueF_int8 (f : Nat) (n : ℤ) (rest : List Nat) (h : -128 ≤ n ∧ n < 128) :
    decodeValueF (f + 1) (encodeInt n ++ rest) = some (.ok (.int n, rest)) := by
  rw [encodeInt_eq8 n h, List.cons_append, decodeValueF_cons, decodeHead_tag3]
  unfold readIntPayload
  rw [readLE_natLE_of_lt 1 _ rest (by have := intToTwos_lt 8 n; norm_num at this ⊢; omega)]
  have hrt : intFromTwos 8 (intToTwos 8 n) = n := by
    have h7 := intFromTwos_intToTwos 7 n (by norm_num; omega) (by norm_num; omega)
    norm_num at h7
    exact h7
  show some (Except.ok (Value.int (intFromTwos 8 (intToTwos 8 n)), rest)) =
    some (Except.ok (Value.int n, rest))
  rw [hrt]

theorem decodeValueF_int16 (f : Nat) (n : ℤ) (rest : List Nat)
    (h8 : ¬(-128 ≤ n ∧ n < 128)) (h : -32768 ≤ n ∧ n < 32768) :
    decodeValueF (f + 1) (encodeInt n ++ rest) = some (.ok (.int n, rest)) := by
  rw [encodeInt_eq16 n h8 h, List.cons_append, decodeValueF_cons, decodeHead_tag4]
  unfold readIntPayload
  rw [readLE_natLE_of_lt 2 _ rest (by have := intToTwos_lt 16 n; norm_num at this ⊢; omega)]
  have hrt : intFromTwos 16 (intToTwos 16 n) = n := by
    have h15 := intFromTwos_intToTwos 15 n (by norm_num; omega) (by norm_num; omega)
    norm_num at h15
    exact h15
  show some (Except.ok (Value.int (intFromTwos 16 (intToTwos 16 n)), rest)) =
    some (Except.ok (Value.int n, rest))
  rw [hrt]

theorem decodeValueF_int32 (f : Nat) (n : ℤ) (rest : List Nat)
    (h8 : ¬(-128 ≤ n ∧ n < 128)) (h16 : ¬(-32768 ≤ n ∧ n < 32768))
    (h : -2147483648 ≤ n ∧ n < 2147483648) :
    decodeValueF (f + 1) (encodeInt n ++ rest) = some (.ok (.int n, rest)) := by
  rw [encodeInt_eq32 n h8 h16 h, List.cons_append, decodeValueF_cons, decodeHead_tag5]
  unfold readIntPayload
  rw [readLE_natLE_of_lt 4 _ rest (by have := intToTwos_lt 32 n; norm_num at this ⊢; omega)]
  have hrt : intFromTwos 32 (intToTwos 32 n) = n := by
    have h31 := intFromTwos_intToTwos 31 n (by norm_num; omega) (by norm_num; omega)
    norm_num at h31
    exact h31
  show some (Except.ok (Value.int (intFromTwos 32 (intToTwos 32 n)), rest)) =
    some (Except.ok (Value.int n, rest))
  rw [hrt]

theorem decodeValueF_int64 (f : Nat) (n : ℤ) (rest : List Nat)
    (h8 : ¬(-128 ≤ n ∧ n < 128)) (h16 : ¬(-32768 ≤ n ∧ n < 32768))
    (h32 : ¬(-2147483648 ≤ n ∧ n < 2147483648))
    (h : -9223372036854775808 ≤ n ∧ n < 9223372036854775808) :
    decodeValueF (f + 1) (encodeInt n ++ rest) = some (.ok (.int n, rest)) := by
  rw [encodeInt_eq64 n h8 h16 h32, List.cons_append, decodeValueF_cons, decodeHead_tag6]
  unfold readIntPayload
  rw [readLE_natLE_of_lt 8 _ rest (by have := intToTwos_lt 64 n; norm_num at this ⊢; omega)]
  have hrt : intFromTwos 64 (intToTwos 64 n) = n := by
    have h63 := intFromTwos_intToTwos 63 n (by norm_num; omega) (by norm_num; omega)
    norm_num at h63
    exact h63
  show some (Except.ok (Value.int (intFromTwos 64 (intToTwos 64 n)), rest)) =
    some (Except.ok (Value.int n, rest))
  rw [hrt]

theorem decodeValueF_encodeInt (f : Nat) (n : ℤ) (rest : List Nat)
    (h1 : -9223372036854775808 ≤ n) (h2 : n < 9223372036854775808) :
    decodeValueF (f + 1) (encodeInt n ++ rest) = some (.ok (.int n, rest)) := by
  by_cases h8 : -128 ≤ n ∧ n < 128
  · exact decodeValueF_int8 f n rest h8
  · by_cases h16 : -32768 ≤ n ∧ n < 32768
    · exact decodeValueF_int16 f n rest h8 h16
    · by_cases h32 : -2147483648 ≤ n ∧ n < 2147483648
      · exact decodeValueF_int32 f n rest h8 h16 h32
      · exact decodeValueF_int64 f n rest h8 h16 h32 ⟨h1, h2⟩

theorem decodeValueF_float (f m : Nat) (rest : List Nat) (h : m < 18446744073709551616) :
    decodeValueF (f + 1) (encode (.float m) ++ rest) = some (.ok (.float m, rest)) := by
  show decodeValueF (f + 1) ((7 :: natLE 8 m) ++ rest) = _
  rw [List.cons_append, decodeValueF_cons, decodeHead_tag7]
  unfold readFloatPayload
  rw [readLE_natLE_of_lt 8 m rest (by norm_num; omega)]

theorem decodeValueF_bytes (f : Nat) (bs rest : List Nat) (h : bs.length < 4294967296) :
    decodeValueF (f + 1) (encode (.bytes bs) ++ rest) = some (.ok (.bytes bs, rest)) := by
  show decodeValueF (f + 1) ((8 :: (natLE 4 bs.length ++ bs)) ++ rest) = _
  rw [List.cons_append, decodeValueF_cons, decodeHead_tag8]
  unfold readBytesPayload
  rw [List.append_assoc, readLE_natLE_of_lt 4 bs.length (bs ++ rest) (by norm_num; omega)]
  have hle : bs.length ≤ (bs ++ rest).length := by simp
  simp [hle, List.take_left, List.drop_left]

theorem decodeValueF_text (f : Nat) (cs rest : List Nat)
    (hlen : (utf8Encode cs).length < 4294967296) (hsc : cs.all isScalar = true) :
    decodeValueF (f + 1) (encode (.text cs) ++ rest) = some (.ok (.text cs, rest)) := by
  show decodeValueF (f + 1)
    ((9 :: (natLE 4 (utf8Encode cs).length ++ utf8Encode cs)) ++ rest) = _
  rw [List.cons_append, decodeValueF_cons, decodeHead_tag9]
  unfold readTextPayload
  rw [List.append_assoc,
    readLE_natLE_of_lt 4 (utf8Encode cs).length (utf8Encode cs ++ rest) (by norm_num; omega)]
  have hle : (utf8Encode cs).length ≤ (utf8Encode cs ++ rest).length := by simp
  simp [hle, List.take_left, List.drop_left, utf8DecodeAll_encode cs hsc]

theorem decodeListF_encodeList (g : Nat) : ∀ (vs : List Value),
    (∀ v, v ∈ vs → Value.validb v = true → ∀ f rest, (encode v ++ rest).length ≤ f →
      decodeValueF (f + 1) (encode v ++ rest) = some (.ok (v, rest))) →
    validList vs = true → ∀ rest, (encodeList vs ++ rest).length ≤ g →
    decodeListF (decodeValueF (g + 1)) vs.length (encodeList vs ++ rest) =
      some (.ok (vs, rest)) := by
  intro vs
  induction vs with
  | nil =>
    intro _ _ rest _
    simp [encodeList, decodeListF]
  | cons v vs ihl =>
    intro ih hv rest hlen
    simp only [validList, Bool.and_eq_true] at hv
    have e : encodeList (v :: vs) ++ rest = encode v ++ (encodeList vs ++ rest) := by
      simp [encodeList, List.append_assoc]
    rw [e] at hlen ⊢
    simp only [List.length_cons, decodeListF]
    have h1 := ih v (List.mem_cons_self v vs) hv.1 g (encodeList vs ++ rest) hlen
    have h2 := ihl (fun u hu => ih u (List.mem_cons_of_mem v hu)) hv.2 rest
      (by simp [List.length_append] at hlen ⊢; omega)
    rw [h1]
    simp [h2]

theorem decodePairsF_encodePairs (g : Nat) : ∀ (ps : List (Value × Value)),
    (∀ q, q ∈ ps →
      (Value.validb q.1 = true → ∀ f rest, (encode q.1 ++ rest).length ≤ f →
        decodeValueF (f + 1) (encode q.1 ++ rest) = some (.ok (q.1, rest))) ∧
      (Value.validb q.2 = true → ∀ f rest, (encode q.2 ++ rest).length ≤ f →
        decodeValueF (f + 1) (encode q.2 ++ rest) = some (.ok (q.2, rest)))) →
    validPairs ps = true → ∀ rest, (encodePairs ps ++ rest).length ≤ g →
    decodePairsF (decodeValueF (g + 1)) ps.length (encodePairs ps ++ rest) =
      some (.ok (ps, rest)) := by
  intro ps
  induction ps with
  | nil =>
    intro _ _ rest _
    simp [encodePairs, decodePairsF]
  | cons q ps ihl =>
    intro ih hv rest hlen
    obtain ⟨k, v⟩ := q
    simp only [validPairs, Bool.and_eq_true] at hv
    have e : encodePairs ((k, v) :: ps) ++ rest =
        encode k ++ (encode v ++ (encodePairs ps ++ rest)) := by
      simp [encodePairs, List.append_assoc]
    rw [e] at hlen ⊢
    simp only [List.length_cons, decodePairsF]
    have ihq := ih (k, v) (List.mem_cons_self _ ps)
    have h1 := ihq.1 hv.1 g (encode v ++ (encodePairs ps ++ rest)) hlen
    have h2 := ihq.2 hv.2.1 g (encodePairs ps ++ rest)
      (by simp [List.length_append] at hlen ⊢; omega)
    have h3 := ihl (fun u hu => ih u (List.mem_cons_of_mem _ hu)) hv.2.2 rest
      (by simp [List.length_append] at hlen ⊢; omega)
    rw [h1]
    simp [h2, h3]

theorem decodeValueF_encode :
    ∀ v, Value.validb v = true → ∀ f rest, (encode v ++ rest).length ≤ f →
      decodeValueF (f + 1) (encode v ++ rest) = some (.ok (v, rest)) := by
  refine value_ind _ ?_ ?_ ?_ ?_ ?_ ?_ ?_ ?_
  · intro _ f rest _
    show decodeValueF (f + 1) (0 :: rest) = _
    rw [decodeValueF_cons, decodeHead_tag0]
  · intro b _ f rest _
    cases b
    · show decodeValueF (f + 1) (1 :: rest) = _
      rw [decodeValueF_cons, decodeHead_tag1]
    · show decodeValueF (f + 1) (2 :: rest) = _
      rw [decodeValueF_cons, decodeHead_tag2]
  · intro n hv f rest _
    simp only [Value.validb, Bool.and_eq_true, decide_eq_true_eq] at hv
    exact decodeValueF_encodeInt f n rest hv.1 hv.2
  · intro m hv f rest _
    simp only [Value.validb, decide_eq_true_eq] at hv
    exact decodeValueF_float f m rest hv
  · intro bs hv f rest _
    simp only [Value.validb, Bool.and_eq_true, decide_eq_true_eq] at hv
    exact decodeValueF_bytes f bs rest hv.1
  · intro cs hv f rest _
    simp only [Value.validb, Bool.and_eq_true, decide_eq_true_eq] at hv
    exact decodeValueF_text f cs rest hv.1 hv.2
  · intro vs ih hv f rest hlen
    simp only [Value.validb, Bool.and_eq_true, decide_eq_true_eq] at hv
    have e : encode (.seq vs) = 10 :: (natLE 4 vs.length ++ encodeList vs) := rfl
    rw [e] at hlen ⊢
    cases f with
    | zero =>
      exfalso
      simp [List.length_append, natLE_length] at hlen
    | succ g =>
      rw [List.cons_append, decodeValueF_cons, decodeHead_tag10]
      unfold decodeSeqPayload
      rw [List.append_assoc,
        readLE_natLE_of_lt 4 vs.length (encodeList vs ++ rest) (by norm_num; omega)]
      have hL := decodeListF_encodeList g vs ih hv.2 rest
        (by simp [List.length_append, natLE_length] at hlen ⊢; omega)
      simp [hL]
  · intro ps ih hv f rest hlen
    simp only [Value.validb, Bool.and_eq_true, decide_eq_true_eq] at hv
    have e : encode (.map ps) = 11 :: (natLE 4 ps.length ++ encodePairs ps) := rfl
    rw [e] at hlen ⊢
    cases f with
    | zero =>
      exfalso
      simp [List.length_append, natLE_length] at hlen
    | succ g =>
      rw [List.cons_append, decodeValueF_cons, decodeHead_tag11]
      unfold decodeMapPayload
      rw [List.append_assoc,
        readLE_natLE_of_lt 4 ps.length (encodePairs ps ++ rest) (by norm_num; omega)]
      have hL := decodePairsF_encodePairs g ps ih hv.2 rest
        (by simp [List.length_append, natLE_length] at hlen ⊢; omega)
      simp [hL]

theorem decode_encode (v : Value) (hv : Value.validb v = true) :
    decode (encode v) = .ok v := by
  have h := decodeValueF_encode v hv (encode v).length [] (by simp)
  rw [List.append_nil] at h
  unfold decode
  rw [h]

/-! ## Fuel monotonicity -/

theorem decodeListF_mono (d d' : List Nat → Option (ParseResult Value))
    (hd : ∀ s r, d s = some r → d' s = some r) :
    ∀ n s r, decodeListF d n s = some r → decodeListF d' n s = some r := by
  intro n
  induction n with
  | zero =>
    intro s r h
    simpa [decodeListF] using h
  | succ n ihn =>
    intro s r h
    simp only [decodeListF] at h ⊢
    cases hds : d s with
    | none => rw [hds] at h; exact absurd h (by simp)
    | some pr =>
      rw [hds] at h
      rw [hd s pr hds]
      cases pr with
      | error e => exact h
      | ok vr =>
        obtain ⟨v, rr⟩ := vr
        cases hrec : decodeListF d n rr with
        | none => simp [hrec] at h
        | some pr2 =>
          simp only [hrec] at h
          simp only [ihn rr pr2 hrec]
          exact h

theorem decodePairsF_mono (d d' : List Nat → Option (ParseResult Value))
    (hd : ∀ s r, d s = some r → d' s = some r) :
    ∀ n s r, decodePairsF d n s = some r → decodePairsF d' n s = some r := by
  intro n
  induction n with
  | zero =>
    intro s r h
    simpa [decodePairsF] using h
  | succ n ihn =>
    intro s r h
    simp only [decodePairsF] at h ⊢
    cases hds : d s with
    | none => rw [hds] at h; exact absurd h (by simp)
    | some pr =>
      rw [hds] at h
      rw [hd s pr hds]
      cases pr with
      | error e => exact h
      | ok vr =>
        obtain ⟨k, r1⟩ := vr
        cases hds2 : d r1 with
        | none => simp [hds2] at h
        | some pr2 =>
          simp only [hds2] at h
          simp only [hd r1 pr2 hds2]
          cases pr2 with
          | error e => exact h
          | ok vr2 =>
            obtain ⟨v, r2⟩ := vr2
            cases hrec : decodePairsF d n r2 with
            | none => simp [hrec] at h
            | some pr3 =>
              simp only [hrec] at h
              simp only [ihn r2 pr3 hrec]
              exact h

theorem decodeSeqPayload_mono (d d' : List Nat → Option (ParseResult Value))
    (hd : ∀ s r, d s = some r → d' s = some r) (s : List Nat) (r : ParseResult Value)
    (h : decodeSeqPayload d s = some r) : decodeSeqPayload d' s = some r := by
  unfold decodeSeqPayload at h ⊢
  cases hre : readLE 4 s with
  | none => simp only [hre] at h ⊢; exact h
  | some nr =>
    obtain ⟨n, rr⟩ := nr
    simp only [hre] at h ⊢
    cases hl : decodeListF d n rr with
    | none => simp [hl] at h
    | some pr =>
      simp only [hl] at h
      simp only [decodeListF_mono d d' hd n rr pr hl]
      exact h

theorem decodeMapPayload_mono (d d' : List Nat → Option (ParseResult Value))
    (hd : ∀ s r, d s = some r → d' s = some r) (s : List Nat) (r : ParseResult Value)
    (h : decodeMapPayload d s = some r) : decodeMapPayload d' s = some r := by
  unfold decodeMapPayload at h ⊢
  cases hre : readLE 4 s with
  | none => simp only [hre] at h ⊢; exact h
  | some nr =>
    obtain ⟨n, rr⟩ := nr
    simp only [hre] at h ⊢
    cases hl : decodePairsF d n rr with
    | none => simp [hl] at h
    | some pr =>
      simp only [hl] at h
      simp only [decodePairsF_mono d d' hd n rr pr hl]
      exact h

theorem decodeHead_mono (d d' : List Nat → Option (ParseResult Value))
    (hd : ∀ s r, d s = some r → d' s = some r) (t : Nat) (s : List Nat)
    (r : ParseResult Value) (h : decodeHead d t s = some r) : decodeHead d' t s = some r := by
  by_cases h0 : t = 0
  · subst h0; rw [decodeHead_tag0] at h ⊢; exact h
  by_cases h1 : t = 1
  · subst h1; rw [decodeHead_tag1] at h ⊢; exact h
  by_cases h2 : t = 2
  · subst h2; rw [decodeHead_tag2] at h ⊢; exact h
  by_cases h3 : t = 3
  · subst h3; rw [decodeHead_tag3] at h ⊢; exact h
  by_cases h4 : t = 4
  · subst h4; rw [decodeHead_tag4] at h ⊢; exact h
  by_cases h5 : t = 5
  · subst h5; rw [decodeHead_tag5] at h ⊢; exact h
  by_cases h6 : t = 6
  · subst h6; rw [decodeHead_tag6] at h ⊢; exact h
  by_cases h7 : t = 7
  · subst h7; rw [decodeHead_tag7] at h ⊢; exact h
  by_cases h8 : t = 8
  · subst h8; rw [decodeHead_tag8] at h ⊢; exact h
  by_cases h9 : t = 9
  · subst h9; rw [decodeHead_tag9] at h ⊢; exact h
  by_cases h10 : t = 10
  · subst h10
    rw [decodeHead_tag10] at h ⊢
    exact decodeSeqPayload_mono d d' hd s r h
  by_cases h11 : t = 11
  · subst h11
    rw [decodeHead_tag11] at h ⊢
    exact decodeMapPayload_mono d d' hd s r h
  rw [decodeHead_unknown d t s (by omega)] at h
  rw [decodeHead_unknown d' t s (by omega)]
  exact h

theorem decodeValueF_mono :
    ∀ f s r, decodeValueF f s = some r → decodeValueF (f + 1) s = some r := by
  intro f
  induction f with
  | zero => intro s r h; simp [decodeValueF] at h
  | succ f ihf =>
    intro s r h
    cases s with
    | nil => simpa [decodeValueF] using h
    | cons t s0 =>
      rw [decodeValueF_cons] at h
      rw [decodeValueF_cons]
      exact decodeHead_mono (decodeValueF f) (decodeValueF (f + 1)) ihf t s0 r h

theorem decodeValueF_mono_le (f g : Nat) (hfg : f ≤ g) :
    ∀ s r, decodeValueF f s = some r → decodeValueF g s = some r := by
  induction g with
  | zero =>
    intro s r h
    have : f = 0 := by omega
    subst this
    exact h
  | succ g ihg =>
    intro s r h
    rcases Nat.lt_or_ge f (g + 1) with hlt | hge
    · exact decodeValueF_mono g s r (ihg (by omega) s r h)
    · have : f = g + 1 := by omega
      subst this
      exact h

theorem decodeValueF_det (f g : Nat) (s : List Nat) (r r2 : ParseResult Value)
    (h1 : decodeValueF f s = some r) (h2 : decodeValueF g s = some r2) : r = r2 := by
  have e1 := decodeValueF_mono_le f (f + g) (by omega) s r h1
  have e2 := decodeValueF_mono_le g (f + g) (by omega) s r2 h2
  rw [e1] at e2
  exact (Option.some.injEq .. ▸ e2)

/-! ## Consumption and totality -/

theorem readLE_length (k : Nat) (s : List Nat) (m : Nat) (r : List Nat)
    (h : readLE k s = some (m, r)) : r.length + k = s.length := by
  obtain ⟨c, hs, hlen, _⟩ := readLE_split k s m r h
  subst hs
  simp [List.length_append, hlen]
  omega

theorem readIntPayload_length (k w : Nat) (s : List Nat) (v : Value) (r : List Nat)
    (h : readIntPayload k w s = .ok (v, r)) : r.length ≤ s.length := by
  unfold readIntPayload at h
  cases hre : readLE k s with
  | none => simp [hre] at h
  | some mr =>
    obtain ⟨m, rr⟩ := mr
    simp only [hre] at h
    simp only [Except.ok.injEq, Prod.mk.injEq] at h
    have hl := readLE_length k s m rr hre
    rw [← h.2]
    omega

theorem readFloatPayload_length (s : List Nat) (v : Value) (r : List Nat)
    (h : readFloatPayload s = .ok (v, r)) : r.length ≤ s.length := by
  unfold readFloatPayload at h
  cases hre : readLE 8 s with
  | none => simp [hre] at h
  | some mr =>
    obtain ⟨m, rr⟩ := mr
    simp only [hre] at h
    simp only [Except.ok.injEq, Prod.mk.injEq] at h
    have hl := readLE_length 8 s m rr hre
    rw [← h.2]
    omega

theorem readBytesPayload_length (s : List Nat) (v : Value) (r : List Nat)
    (h : readBytesPayload s = .ok (v, r)) : r.length ≤ s.length := by
  unfold readBytesPayload at h
  cases hre : readLE 4 s with
  | none => simp [hre] at h
  | some mr =>
    obtain ⟨len, rr⟩ := mr
    simp only [hre] at h
    have hl := readLE_length 4 s len rr hre
    split at h
    · simp only [Except.ok.injEq, Prod.mk.injEq] at h
      rw [← h.2]
      simp [List.length_drop]
      omega
    · simp at h

theorem readTextPayload_length (s : List Nat) (v : Value) (r : List Nat)
    (h : readTextPayload s = .ok (v, r)) : r.length ≤ s.length := by
  unfold readTextPayload at h
  cases hre : readLE 4 s with
  | none => simp [hre] at h
  | some mr =>
    obtain ⟨len, rr⟩ := mr
    simp only [hre] at h
    have hl := readLE_length 4 s len rr hre
    split at h
    · cases hu : utf8DecodeAll (rr.take len) with
      | none => simp [hu] at h
      | some cs2 =>
        simp only [hu] at h
        simp only [Except.ok.injEq, Prod.mk.injEq] at h
        rw [← h.2]
        simp [List.length_drop]
        omega
    · simp at h

theorem decodeListF_length (d : List Nat → Option (ParseResult Value))
    (hd : ∀ s v r, d s = some (.ok (v, r)) → r.length < s.length) :
    ∀ n s vs r, decodeListF d n s = some (.ok (vs, r)) → r.length ≤ s.length := by
  intro n
  induction n with
  | zero =>
    intro s vs r h
    simp only [decodeListF, Option.some.injEq, Except.ok.injEq, Prod.mk.injEq] at h
    rw [← h.2]
  | succ n ihn =>
    intro s vs r h
    simp only [decodeListF] at h
    cases hds : d s with
    | none => simp [hds] at h
    | some pr =>
      simp only [hds] at h
      cases pr with
      | error e => simp at h
      | ok vr =>
        obtain ⟨v, rr⟩ := vr
        have hlt := hd s v rr hds
        cases hrec : decodeListF d n rr with
        | none => simp [hrec] at h
        | some pr2 =>
          simp only [hrec] at h
          cases pr2 with
          | error e => simp at h
          | ok vr2 =>
            obtain ⟨vs2, r2⟩ := vr2
            simp only [Option.some.injEq, Except.ok.injEq, Prod.mk.injEq] at h
            have := ihn rr vs2 r2 hrec
            rw [← h.2]
            omega

theorem decodePairsF_length (d : List Nat → Option (ParseResult Value))
    (hd : ∀ s v r, d s = some (.ok (v, r)) → r.length < s.length) :
    ∀ n s ps r, decodePairsF d n s = some (.ok (ps, r)) → r.length ≤ s.length := by
  intro n
  induction n with
  | zero =>
    intro s ps r h
    simp only [decodePairsF, Option.some.injEq, Except.ok.injEq, Prod.mk.injEq] at h
    rw [← h.2]
  | succ n ihn =>
    intro s ps r h
    simp only [decodePairsF] at h
    cases hds : d s with
    | none => simp [hds] at h
    | some pr =>
      simp only [hds] at h
      cases pr with
      | error e => simp at h
      | ok vr =>
        obtain ⟨k, r1⟩ := vr
        have hlt1 := hd s k r1 hds
        cases hds2 : d r1 with
        | none => simp [hds2] at h
        | some pr2 =>
          simp only [hds2] at h
          cases pr2 with
          | error e => simp at h
          | ok vr2 =>
            obtain ⟨v, r2⟩ := vr2
            have hlt2 := hd r1 v r2 hds2
            cases hrec : decodePairsF d n r2 with
            | none => simp [hrec] at h
            | some pr3 =>
              simp only [hrec] at h
              cases pr3 with
              | error e => simp at h
              | ok vr3 =>
                obtain ⟨ps2, r3⟩ := vr3
                simp only [Option.some.injEq, Except.ok.injEq, Prod.mk.injEq] at h
                have := ihn r2 ps2 r3 hrec
                rw [← h.2]
                omega

theorem decodeSeqPayload_length (d : List Nat → Option (ParseResult Value))
    (hd : ∀ s v r, d s = some (.ok (v, r)) → r.length < s.length)
    (s : List Nat) (v : Value) (r : List Nat)
    (h : decodeSeqPayload d s = some (.ok (v, r))) : r.length ≤ s.length := by
  unfold decodeSeqPayload at h
  cases hre : readLE 4 s with
  | none => simp [hre] at h
  | some nr =>
    obtain ⟨n, rr⟩ := nr
    simp only [hre] at h
    have hl := readLE_length 4 s n rr hre
    cases hll : decodeListF d n rr with
    | none => simp [hll] at h
    | some pr =>
      simp only [hll] at h
      cases pr with
      | error e => simp at h
      | ok vr =>
        obtain ⟨vs, r2⟩ := vr
        simp only [Option.some.injEq, Except.ok.injEq, Prod.mk.injEq] at h
        have := decodeListF_length d hd n rr vs r2 hll
        rw [← h.2]
        omega

theorem decodeMapPayload_length (d : List Nat → Option (ParseResult Value))
    (hd : ∀ s v r, d s = some (.ok (v, r)) → r.length < s.length)
    (s : List Nat) (v : Value) (r : List Nat)
    (h : decodeMapPayload d s = some (.ok (v, r))) : r.length ≤ s.length := by
  unfold decodeMapPayload at h
  cases hre : readLE 4 s with
  | none => simp [hre] at h
  | some nr =>
    obtain ⟨n, rr⟩ := nr
    simp only [hre] at h
    have hl := readLE_length 4 s n rr hre
    cases hll : decodePairsF d n rr with
    | none => simp [hll] at h
    | some pr =>
      simp only [hll] at h
      cases pr with
      | error e => simp at h
      | ok vr =>
        obtain ⟨ps, r2⟩ := vr
        simp only [Option.some.injEq, Except.ok.injEq, Prod.mk.injEq] at h
        have := decodePairsF_length d hd n rr ps r2 hll
        rw [← h.2]
        omega

theorem decodeHead_length (d : List Nat → Option (ParseResult Value))
    (hd : ∀ s v r, d s = some (.ok (v, r)) → r.length < s.length)
    (t : Nat) (s : List Nat) (v : Value) (r : List Nat)
    (h : decodeHead d t s = some (.ok (v, r))) : r.length ≤ s.length := by
  by_cases h0 : t = 0
  · subst h0; rw [decodeHead_tag0] at h; simp at h; rw [← h.2]
  by_cases h1 : t = 1
  · subst h1; rw [decodeHead_tag1] at h; simp at h; rw [← h.2]
  by_cases h2 : t = 2
  · subst h2; rw [decodeHead_tag2] at h; simp at h; rw [← h.2]
  by_cases h3 : t = 3
  · subst h3; rw [decodeHead_tag3] at h
    exact readIntPayload_length 1 8 s v r (Option.some.inj h)
  by_cases h4 : t = 4
  · subst h4; rw [decodeHead_tag4] at h
    exact readIntPayload_length 2 16 s v r (Option.some.inj h)
  by_cases h5 : t = 5
  · subst h5; rw [decodeHead_tag5] at h
    exact readIntPayload_length 4 32 s v r (Option.some.inj h)
  by_cases h6 : t = 6
  · subst h6; rw [decodeHead_tag6] at h
    exact readIntPayload_length 8 64 s v r (Option.some.inj h)
  by_cases h7 : t = 7
  · subst h7; rw [decodeHead_tag7] at h
    exact readFloatPayload_length s v r (Option.some.inj h)
  by_cases h8 : t = 8
  · subst h8; rw [decodeHead_tag8] at h
    exact readBytesPayload_length s v r (Option.some.inj h)
  by_cases h9 : t = 9
  · subst h9; rw [decodeHead_tag9] at h
    exact readTextPayload_length s v r (Option.some.inj h)
  by_cases h10 : t = 10
  · subst h10; rw [decodeHead_tag10] at h
    exact decodeSeqPayload_length d hd s v r h
  by_cases h11 : t = 11
  · subst h11; rw [decodeHead_tag11] at h
    exact decodeMapPayload_length d hd s v r h
  rw [decodeHead_unknown d t s (by omega)] at h
  simp at h

theorem decodeValueF_consumes :
    ∀ f s v r, decodeValueF f s = some (.ok (v, r)) → r.length < s.length := by
  intro f
  induction f with
  | zero => intro s v r h; simp [decodeValueF] at h
  | succ f ihf =>
    intro s v r h
    cases s with
    | nil => simp [decodeValueF] at h
    | cons t s0 =>
      rw [decodeValueF_cons] at h
      have := decodeHead_length (decodeValueF f) ihf t s0 v r h
      simp
      omega

theorem decodeListF_total (f : Nat) (d : List Nat → Option (ParseResult Value))
    (hdt : ∀ s, s.length < f → d s ≠ none)
    (hdc : ∀ s v r, d s = some (.ok (v, r)) → r.length < s.length) :
    ∀ n s, s.length < f → decodeListF d n s ≠ none := by
  intro n
  induction n with
  | zero => intro s _; simp [decodeListF]
  | succ n ihn =>
    intro s hlen
    simp only [decodeListF]
    cases hds : d s with
    | none => exact absurd hds (hdt s hlen)
    | some pr =>
      cases pr with
      | error e => simp
      | ok vr =>
        obtain ⟨v, rr⟩ := vr
        have hlt := hdc s v rr hds
        cases hrec : decodeListF d n rr with
        | none => exact absurd hrec (ihn rr (by omega))
        | some pr2 => cases pr2 <;> simp [hrec]

theorem decodePairsF_total (f : Nat) (d : List Nat → Option (ParseResult Value))
    (hdt : ∀ s, s.length < f → d s ≠ none)
    (hdc : ∀ s v r, d s = some (.ok (v, r)) → r.length < s.length) :
    ∀ n s, s.length < f → decodePairsF d n s ≠ none := by
  intro n
  induction n with
  | zero => intro s _; simp [decodePairsF]
  | succ n ihn =>
    intro s hlen
    simp only [decodePairsF]
    cases hds : d s with
    | none => exact absurd hds (hdt s hlen)
    | some pr =>
      cases pr with
      | error e => simp
      | ok vr =>
        obtain ⟨k, r1⟩ := vr
        have hlt1 := hdc s k r1 hds
        cases hds2 : d r1 with
        | none => exact absurd hds2 (hdt r1 (by omega))
        | some pr2 =>
          cases pr2 with
          | error e => simp [hds2]
          | ok vr2 =>
            obtain ⟨v, r2⟩ := vr2
            have hlt2 := hdc r1 v r2 hds2
            cases hrec : decodePairsF d n r2 with
            | none => exact absurd hrec (ihn r2 (by omega))
            | some pr3 => cases pr3 <;> simp [hds2, hrec]

theorem decodeSeqPayload_total (f : Nat) (d : List Nat → Option (ParseResult Value))
    (hdt : ∀ s, s.length < f → d s ≠ none)
    (hdc : ∀ s v r, d s = some (.ok (v, r)) → r.length < s.length)
    (s : List Nat) (hlen : s.length < f) : decodeSeqPayload d s ≠ none := by
  unfold decodeSeqPayload
  cases hre : readLE 4 s with
  | none => simp
  | some nr =>
    obtain ⟨n, rr⟩ := nr
    have hl := readLE_length 4 s n rr hre
    cases hll : decodeListF d n rr with
    | none => exact absurd hll (decodeListF_total f d hdt hdc n rr (by omega))
    | some pr => cases pr <;> simp [hll]

theorem decodeMapPayload_total (f : Nat) (d : List Nat → Option (ParseResult Value))
    (hdt : ∀ s, s.length < f → d s ≠ none)
    (hdc : ∀ s v r, d s = some (.ok (v, r)) → r.length < s.length)
    (s : List Nat) (hlen : s.length < f) : decodeMapPayload d s ≠ none := by
  unfold decodeMapPayload
  cases hre : readLE 4 s with
  | none => simp
  | some nr =>
    obtain ⟨n, rr⟩ := nr
    have hl := readLE_length 4 s n rr hre
    cases hll : decodePairsF d n rr with
    | none => exact absurd hll (decodePairsF_total f d hdt hdc n rr (by omega))
    | some pr => cases pr <;> simp [hll]

theorem decodeHead_total (f : Nat) (d : List Nat → Option (ParseResult Value))
    (hdt : ∀ s, s.length < f → d s ≠ none)
    (hdc : ∀ s v r, d s = some (.ok (v, r)) → r.length < s.length)
    (t : Nat) (s : List Nat) (hlen : s.length < f) : decodeHead d t s ≠ none := by
  by_cases h0 : t = 0
  · subst h0; rw [decodeHead_tag0]; simp
  by_cases h1 : t = 1
  · subst h1; rw [decodeHead_tag1]; simp
  by_cases h2 : t = 2
  · subst h2; rw [decodeHead_tag2]; simp
  by_cases h3 : t = 3
  · subst h3; rw [decodeHead_tag3]; simp
  by_cases h4 : t = 4
  · subst h4; rw [decodeHead_tag4]; simp
  by_cases h5 : t = 5
  · subst h5; rw [decodeHead_tag5]; simp
  by_cases h6 : t = 6
  · subst h6; rw [decodeHead_tag6]; simp
  by_cases h7 : t = 7
  · subst h7; rw [decodeHead_tag7]; simp
  by_cases h8 : t = 8
  · subst h8; rw [decodeHead_tag8]; simp
  by_cases h9 : t = 9
  · subst h9; rw [decodeHead_tag9]; simp
  by_cases h10 : t = 10
  · subst h10; rw [decodeHead_tag10]
    exact decodeSeqPayload_total f d hdt hdc s hlen
  by_cases h11 : t = 11
  · subst h11; rw [decodeHead_tag11]
    exact decodeMapPayload_total f d hdt hdc s hlen
  rw [decodeHead_unknown d t s (by omega)]
  simp

theorem decodeValueF_total : ∀ f s, s.length < f → decodeValueF f s ≠ none := by
  intro f
  induction f with
  | zero => intro s h; exact absurd h (by omega)
  | succ f ihf =>
    intro s hlen
    cases s with
    | nil => simp [decodeValueF]
    | cons t s0 =>
      rw [decodeValueF_cons]
      exact decodeHead_total f (decodeValueF f) ihf (decodeValueF_consumes f) t s0
        (by simp at hlen; omega)


/-! ## Extension of successful parses -/

theorem readIntPayload_extend (k w : Nat) (s : List Nat) (v : Value) (r : List Nat)
    (h : readIntPayload k w s = .ok (v, r)) :
    ∃ c, s = c ++ r ∧ ∀ t, readIntPayload k w (c ++ t) = .ok (v, t) := by
  unfold readIntPayload at h
  cases hre : readLE k s with
  | none => simp [hre] at h
  | some mr =>
    obtain ⟨m, rr⟩ := mr
    simp only [hre] at h
    simp only [Except.ok.injEq, Prod.mk.injEq] at h
    obtain ⟨hv, hr⟩ := h
    obtain ⟨c, hs, hlen, hall⟩ := readLE_split k s m rr hre
    refine ⟨c, by rw [hs, hr], fun t => ?_⟩
    unfold readIntPayload
    rw [hall t]
    simp [hv]

theorem readFloatPayload_extend (s : List Nat) (v : Value) (r : List Nat)
    (h : readFloatPayload s = .ok (v, r)) :
    ∃ c, s = c ++ r ∧ ∀ t, readFloatPayload (c ++ t) = .ok (v, t) := by
  unfold readFloatPayload at h
  cases hre : readLE 8 s with
  | none => simp [hre] at h
  | some mr =>
    obtain ⟨m, rr⟩ := mr
    simp only [hre] at h
    simp only [Except.ok.injEq, Prod.mk.injEq] at h
    obtain ⟨hv, hr⟩ := h
    obtain ⟨c, hs, hlen, hall⟩ := readLE_split 8 s m rr hre
    refine ⟨c, by rw [hs, hr], fun t => ?_⟩
    unfold readFloatPayload
    rw [hall t]
    simp [hv]

theorem readBytesPayload_extend (s : List Nat) (v : Value) (r : List Nat)
    (h : readBytesPayload s = .ok (v, r)) :
    ∃ c, s = c ++ r ∧ ∀ t, readBytesPayload (c ++ t) = .ok (v, t) := by
  unfold readBytesPayload at h
  cases hre : readLE 4 s with
  | none => simp [hre] at h
  | some mr =>
    obtain ⟨len, rr⟩ := mr
    simp only [hre] at h
    split at h
    case isFalse => simp at h
    case isTrue hcond =>
      simp only [Except.ok.injEq, Prod.mk.injEq] at h
      obtain ⟨hv, hr⟩ := h
      obtain ⟨c1, hs, hc1, hall⟩ := readLE_split 4 s len rr hre
      have hlen2 : (rr.take len).length = len := by
        simp [List.length_take]
        omega
      refine ⟨c1 ++ rr.take len, ?_, fun t => ?_⟩
      · rw [hs, ← hr, List.append_assoc, List.take_append_drop]
      · unfold readBytesPayload
        rw [List.append_assoc, hall (rr.take len ++ t)]
        have hle2 : len ≤ (rr.take len ++ t).length := by
          simp [hlen2]
        have htake : (rr.take len ++ t).take len = rr.take len := List.take_left' hlen2
        have hdrop : (rr.take len ++ t).drop len = t := List.drop_left' hlen2
        simp [hle2, htake, hdrop, hv]
        omega

theorem readTextPayload_extend (s : List Nat) (v : Value) (r : List Nat)
    (h : readTextPayload s = .ok (v, r)) :
    ∃ c, s = c ++ r ∧ ∀ t, readTextPayload (c ++ t) = .ok (v, t) := by
  unfold readTextPayload at h
  cases hre : readLE 4 s with
  | none => simp [hre] at h
  | some mr =>
    obtain ⟨len, rr⟩ := mr
    simp only [hre] at h
    split at h
    case isFalse => simp at h
    case isTrue hcond =>
      cases hu : utf8DecodeAll (rr.take len) with
      | none => simp [hu] at h
      | some cs =>
        simp only [hu] at h
        simp only [Except.ok.injEq, Prod.mk.injEq] at h
        obtain ⟨hv, hr⟩ := h
        obtain ⟨c1, hs, hc1, hall⟩ := readLE_split 4 s len rr hre
        have hlen2 : (rr.take len).length = len := by
          simp [List.length_take]
          omega
        refine ⟨c1 ++ rr.take len, ?_, fun t => ?_⟩
        · rw [hs, ← hr, List.append_assoc, List.take_append_drop]
        · unfold readTextPayload
          rw [List.append_assoc, hall (rr.take len ++ t)]
          have hle2 : len ≤ (rr.take len ++ t).length := by
            simp [hlen2]
          have htake : (rr.take len ++ t).take len = rr.take len := List.take_left' hlen2
          have hdrop : (rr.take len ++ t).drop len = t := List.drop_left' hlen2
          simp [hle2, htake, hdrop, hu, hv]
          omega

theorem decodeListF_extend (d : List Nat → Option (ParseResult Value))
    (hd : ∀ s v r, d s = some (.ok (v, r)) →
      ∃ c, s = c ++ r ∧ ∀ u, d (c ++ u) = some (.ok (v, u))) :
    ∀ n s vs r, decodeListF d n s = some (.ok (vs, r)) →
      ∃ c, s = c ++ r ∧ ∀ u, decodeListF d n (c ++ u) = some (.ok (vs, u)) := by
  intro n
  induction n with
  | zero =>
    intro s vs r h
    simp only [decodeListF, Option.some.injEq, Except.ok.injEq, Prod.mk.injEq] at h
    obtain ⟨hv, hr⟩ := h
    refine ⟨[], by simp [hr], fun u => by simp [decodeListF, ← hv]⟩
  | succ n ihn =>
    intro s vs r h
    simp only [decodeListF] at h
    cases hds : d s with
    | none => simp [hds] at h
    | some pr =>
      simp only [hds] at h
      cases pr with
      | error e => simp at h
      | ok vr =>
        obtain ⟨v, rr⟩ := vr
        cases hrec : decodeListF d n rr with
        | none => simp [hrec] at h
        | some pr2 =>
          simp only [hrec] at h
          cases pr2 with
          | error e => simp at h
          | ok vr2 =>
            obtain ⟨vs2, r2⟩ := vr2
            simp only [Option.some.injEq, Except.ok.injEq, Prod.mk.injEq] at h
            obtain ⟨hv, hr⟩ := h
            obtain ⟨c1, hs1, hall1⟩ := hd s v rr hds
            obtain ⟨c2, hs2, hall2⟩ := ihn rr vs2 r2 hrec
            refine ⟨c1 ++ c2, ?_, fun u => ?_⟩
            · rw [hs1, hs2, ← hr, List.append_assoc]
            · simp only [decodeListF, List.append_assoc, hall1 (c2 ++ u), hall2 u, ← hv]

theorem decodePairsF_extend (d : List Nat → Option (ParseResult Value))
    (hd : ∀ s v r, d s = some (.ok (v, r)) →
      ∃ c, s = c ++ r ∧ ∀ u, d (c ++ u) = some (.ok (v, u))) :
    ∀ n s ps r, decodePairsF d n s = some (.ok (ps, r)) →
      ∃ c, s = c ++ r ∧ ∀ u, decodePairsF d n (c ++ u) = some (.ok (ps, u)) := by
  intro n
  induction n with
  | zero =>
    intro s ps r h
    simp only [decodePairsF, Option.some.injEq, Except.ok.injEq, Prod.mk.injEq] at h
    obtain ⟨hv, hr⟩ := h
    refine ⟨[], by simp [hr], fun u => by simp [decodePairsF, ← hv]⟩
  | succ n ihn =>
    intro s ps r h
    simp only [decodePairsF] at h
    cases hds : d s with
    | none => simp [hds] at h
    | some pr =>
      simp only [hds] at h
      cases pr with
      | error e => simp at h
      | ok vr =>
        obtain ⟨k, r1⟩ := vr
        cases hds2 : d r1 with
        | none => simp [hds2] at h
        | some pr2 =>
          simp only [hds2] at h
          cases pr2 with
          | error e => simp at h
          | ok vr2 =>
            obtain ⟨v, r2⟩ := vr2
            cases hrec : decodePairsF d n r2 with
            | none => simp [hrec] at h
            | some pr3 =>
              simp only [hrec] at h
              cases pr3 with
              | error e => simp at h
              | ok vr3 =>
                obtain ⟨ps2, r3⟩ := vr3
                simp only [Option.some.injEq, Except.ok.injEq, Prod.mk.injEq] at h
                obtain ⟨hv, hr⟩ := h
                obtain ⟨c1, hs1, hall1⟩ := hd s k r1 hds
                obtain ⟨c2, hs2, hall2⟩ := hd r1 v r2 hds2
                obtain ⟨c3, hs3, hall3⟩ := ihn r2 ps2 r3 hrec
                refine ⟨c1 ++ (c2 ++ c3), ?_, fun u => ?_⟩
                · rw [hs1, hs2, hs3, ← hr]
                  simp [List.append_assoc]
                · simp only [decodePairsF, List.append_assoc, hall1 (c2 ++ (c3 ++ u)),
                    hall2 (c3 ++ u), hall3 u, ← hv]

theorem decodeSeqPayload_extend (d : List Nat → Option (ParseResult Value))
    (hd : ∀ s v r, d s = some (.ok (v, r)) →
      ∃ c, s = c ++ r ∧ ∀ u, d (c ++ u) = some (.ok (v, u)))
    (s : List Nat) (v : Value) (r : List Nat)
    (h : decodeSeqPayload d s = some (.ok (v, r))) :
    ∃ c, s = c ++ r ∧ ∀ u, decodeSeqPayload d (c ++ u) = some (.ok (v, u)) := by
  unfold decodeSeqPayload at h
  cases hre : readLE 4 s with
  | none => simp [hre] at h
  | some nr =>
    obtain ⟨n, rr⟩ := nr
    simp only [hre] at h
    cases hll : decodeListF d n rr with
    | none => simp [hll] at h
    | some pr =>
      simp only [hll] at h
      cases pr with
      | error e => simp at h
      | ok vr =>
        obtain ⟨vs, r2⟩ := vr
        simp only [Option.some.injEq, Except.ok.injEq, Prod.mk.injEq] at h
        obtain ⟨hv, hr⟩ := h
        obtain ⟨c1, hs1, hc1, hall1⟩ := readLE_split 4 s n rr hre
        obtain ⟨c2, hs2, hall2⟩ := decodeListF_extend d hd n rr vs r2 hll
        refine ⟨c1 ++ c2, ?_, fun u => ?_⟩
        · rw [hs1, hs2, ← hr, List.append_assoc]
        · unfold decodeSeqPayload
          rw [List.append_assoc, hall1 (c2 ++ u)]
          simp [hall2 u, ← hv]

theorem decodeMapPayload_extend (d : List Nat → Option (ParseResult Value))
    (hd : ∀ s v r, d s = some (.ok (v, r)) →
      ∃ c, s = c ++ r ∧ ∀ u, d (c ++ u) = some (.ok (v, u)))
    (s : List Nat) (v : Value) (r : List Nat)
    (h : decodeMapPayload d s = some (.ok (v, r))) :
    ∃ c, s = c ++ r ∧ ∀ u, decodeMapPayload d (c ++ u) = some (.ok (v, u)) := by
  unfold decodeMapPayload at h
  cases hre : readLE 4 s with
  | none => simp [hre] at h
  | some nr =>
    obtain ⟨n, rr⟩ := nr
    simp only [hre] at h
    cases hll : decodePairsF d n rr with
    | none => simp [hll] at h
    | some pr =>
      simp only [hll] at h
      cases pr with
      | error e => simp at h
      | ok vr =>
        obtain ⟨ps, r2⟩ := vr
        simp only [Option.some.injEq, Except.ok.injEq, Prod.mk.injEq] at h
        obtain ⟨hv, hr⟩ := h
        obtain ⟨c1, hs1, hc1, hall1⟩ := readLE_split 4 s n rr hre
        obtain ⟨c2, hs2, hall2⟩ := decodePairsF_extend d hd n rr ps r2 hll
        refine ⟨c1 ++ c2, ?_, fun u => ?_⟩
        · rw [hs1, hs2, ← hr, List.append_assoc]
        · unfold decodeMapPayload
          rw [List.append_assoc, hall1 (c2 ++ u)]
          simp [hall2 u, ← hv]

theorem decodeHead_extend (d : List Nat → Option (ParseResult Value))
    (hd : ∀ s v r, d s = some (.ok (v, r)) →
      ∃ c, s = c ++ r ∧ ∀ u, d (c ++ u) = some (.ok (v, u)))
    (t : Nat) (s : List Nat) (v : Value) (r : List Nat)
    (h : decodeHead d t s = some (.ok (v, r))) :
    ∃ c, s = c ++ r ∧ ∀ u, decodeHead d t (c ++ u) = some (.ok (v, u)) := by
  by_cases h0 : t = 0
  · subst h0
    rw [decodeHead_tag0] at h
    simp only [Option.some.injEq, Except.ok.injEq, Prod.mk.injEq] at h
    exact ⟨[], by simp [h.2], fun u => by simp [decodeHead_tag0, ← h.1]⟩
  by_cases h1 : t = 1
  · subst h1
    rw [decodeHead_tag1] at h
    simp only [Option.some.injEq, Except.ok.injEq, Prod.mk.injEq] at h
    exact ⟨[], by simp [h.2], fun u => by simp [decodeHead_tag1, ← h.1]⟩
  by_cases h2 : t = 2
  · subst h2
    rw [decodeHead_tag2] at h
    simp only [Option.some.injEq, Except.ok.injEq, Prod.mk.injEq] at h
    exact ⟨[], by simp [h.2], fun u => by simp [decodeHead_tag2, ← h.1]⟩
  by_cases h3 : t = 3
  · subst h3
    rw [decodeHead_tag3] at h
    obtain ⟨c, hs, hall⟩ := readIntPayload_extend 1 8 s v r (Option.some.inj h)
    exact ⟨c, hs, fun u => by rw [decodeHead_tag3, hall u]⟩
  by_cases h4 : t = 4
  · subst h4
    rw [decodeHead_tag4] at h
    obtain ⟨c, hs, hall⟩ := readIntPayload_extend 2 16 s v r (Option.some.inj h)
    exact ⟨c, hs, fun u => by rw [decodeHead_tag4, hall u]⟩
  by_cases h5 : t = 5
  · subst h5
    rw [decodeHead_tag5] at h
    obtain ⟨c, hs, hall⟩ := readIntPayload_extend 4 32 s v r (Option.some.inj h)
    exact ⟨c, hs, fun u => by rw [decodeHead_tag5, hall u]⟩
  by_cases h6 : t = 6
  · subst h6
    rw [decodeHead_tag6] at h
    obtain ⟨c, hs, hall⟩ := readIntPayload_extend 8 64 s v r (Option.some.inj h)
    exact ⟨c, hs, fun u => by rw [decodeHead_tag6, hall u]⟩
  by_cases h7 : t = 7
  · subst h7
    rw [decodeHead_tag7] at h
    obtain ⟨c, hs, hall⟩ := readFloatPayload_extend s v r (Option.some.inj h)
    exact ⟨c, hs, fun u => by rw [decodeHead_tag7, hall u]⟩
  by_cases h8 : t = 8
  · subst h8
    rw [decodeHead_tag8] at h
    obtain ⟨c, hs, hall⟩ := readBytesPayload_extend s v r (Option.some.inj h)
    exact ⟨c, hs, fun u => by rw [decodeHead_tag8, hall u]⟩
  by_cases h9 : t = 9
  · subst h9
    rw [decodeHead_tag9] at h
    obtain ⟨c, hs, hall⟩ := readTextPayload_extend s v r (Option.some.inj h)
    exact ⟨c, hs, fun u => by rw [decodeHead_tag9, hall u]⟩
  by_cases h10 : t = 10
  · subst h10
    rw [decodeHead_tag10] at h
    obtain ⟨c, hs, hall⟩ := decodeSeqPayload_extend d hd s v r h
    exact ⟨c, hs, fun u => by rw [decodeHead_tag10, hall u]⟩
  by_cases h11 : t = 11
  · subst h11
    rw [decodeHead_tag11] at h
    obtain ⟨c, hs, hall⟩ := decodeMapPayload_extend d hd s v r h
    exact ⟨c, hs, fun u => by rw [decodeHead_tag11, hall u]⟩
  rw [decodeHead_unknown d t s (by omega)] at h
  simp at h

theorem decodeValueF_extend :
    ∀ f s v r, decodeValueF f s = some (.ok (v, r)) →
      ∃ c, c ≠ [] ∧ s = c ++ r ∧ ∀ u, decodeValueF f (c ++ u) = some (.ok (v, u)) := by
  intro f
  induction f with
  | zero => intro s v r h; simp [decodeValueF] at h
  | succ f ihf =>
    intro s v r h
    cases s with
    | nil => simp [decodeValueF] at h
    | cons t s0 =>
      rw [decodeValueF_cons] at h
      obtain ⟨c0, hs0, hall0⟩ := decodeHead_extend (decodeValueF f)
        (fun s2 v2 r2 hh => (ihf s2 v2 r2 hh).elim
          (fun c hc => ⟨c, hc.2.1, hc.2.2⟩)) t s0 v r h
      refine ⟨t :: c0, by simp, by simp [hs0], fun u => ?_⟩
      rw [List.cons_append, decodeValueF_cons, hall0 u]


/-! ## Extension of non-truncation failures -/

theorem readIntPayload_error (k w : Nat) (s : List Nat) (e : ParseError)
    (h : readIntPayload k w s = .error e) : e = .truncated := by
  unfold readIntPayload at h
  cases hre : readLE k s with
  | none => simp only [hre] at h; simp at h; exact h.symm
  | some mr => obtain ⟨m, rr⟩ := mr; simp [hre] at h

theorem readFloatPayload_error (s : List Nat) (e : ParseError)
    (h : readFloatPayload s = .error e) : e = .truncated := by
  unfold readFloatPayload at h
  cases hre : readLE 8 s with
  | none => simp only [hre] at h; simp at h; exact h.symm
  | some mr => obtain ⟨m, rr⟩ := mr; simp [hre] at h

theorem readBytesPayload_error (s : List Nat) (e : ParseError)
    (h : readBytesPayload s = .error e) : e = .truncated := by
  unfold readBytesPayload at h
  cases hre : readLE 4 s with
  | none => simp only [hre] at h; simp at h; exact h.symm
  | some mr =>
    obtain ⟨len, rr⟩ := mr
    simp only [hre] at h
    split at h
    · simp at h
    · simp at h; exact h.symm

theorem readTextPayload_error (s : List Nat) (e : ParseError)
    (h : readTextPayload s = .error e) : e = .truncated ∨ e = .invalidText := by
  unfold readTextPayload at h
  cases hre : readLE 4 s with
  | none => simp only [hre] at h; simp at h; exact .inl h.symm
  | some mr =>
    obtain ⟨len, rr⟩ := mr
    simp only [hre] at h
    split at h
    · cases hu : utf8DecodeAll (rr.take len) with
      | none => simp only [hu] at h; simp at h; exact .inr h.symm
      | some cs => simp [hu] at h
    · simp at h; exact .inl h.symm

theorem readTextPayload_errExtend (s : List Nat)
    (h : readTextPayload s = .error .invalidText) :
    ∀ t, readTextPayload (s ++ t) = .error .invalidText := by
  unfold readTextPayload at h
  cases hre : readLE 4 s with
  | none => simp [hre] at h
  | some mr =>
    obtain ⟨len, rr⟩ := mr
    simp only [hre] at h
    split at h
    case isFalse => simp at h
    case isTrue hcond =>
      cases hu : utf8DecodeAll (rr.take len) with
      | some cs => simp [hu] at h
      | none =>
        intro t
        obtain ⟨c1, hs, hc1, hall⟩ := readLE_split 4 s len rr hre
        unfold readTextPayload
        rw [hs, List.append_assoc, hall (rr ++ t)]
        have htake : (rr ++ t).take len = rr.take len := by
          rw [List.take_append_eq_append_take]
          simp [Nat.sub_eq_zero_of_le hcond]
        have hle : len ≤ (rr ++ t).length := by
          simp
          omega
        simp [hle, htake, hu]
        omega

theorem decodeListF_errExtend (d : List Nat → Option (ParseResult Value))
    (hdE : ∀ s v r, d s = some (.ok (v, r)) →
      ∃ c, s = c ++ r ∧ ∀ u, d (c ++ u) = some (.ok (v, u)))
    (hdErr : ∀ s e, d s = some (.error e) → e ≠ .truncated →
      ∀ u, d (s ++ u) = some (.error e)) :
    ∀ n s e, decodeListF d n s = some (.error e) → e ≠ .truncated →
      ∀ u, decodeListF d n (s ++ u) = some (.error e) := by
  intro n
  induction n with
  | zero => intro s e h; simp [decodeListF] at h
  | succ n ihn =>
    intro s e h hne u
    simp only [decodeListF] at h
    cases hds : d s with
    | none => simp [hds] at h
    | some pr =>
      simp only [hds] at h
      cases pr with
      | error e2 =>
        simp only [Option.some.injEq, Except.error.injEq] at h
        subst h
        have := hdErr s e2 hds hne u
        simp only [decodeListF, this]
      | ok vr =>
        obtain ⟨v, rr⟩ := vr
        cases hrec : decodeListF d n rr with
        | none => simp [hrec] at h
        | some pr2 =>
          simp only [hrec] at h
          cases pr2 with
          | ok vr2 => obtain ⟨vs2, r2⟩ := vr2; simp at h
          | error e2 =>
            simp only [Option.some.injEq, Except.error.injEq] at h
            subst h
            obtain ⟨c1, hs1, hall1⟩ := hdE s v rr hds
            have hr := ihn rr e2 hrec hne u
            rw [hs1, List.append_assoc]
            simp only [decodeListF, hall1 (rr ++ u), hr]

theorem decodePairsF_errExtend (d : List Nat → Option (ParseResult Value))
    (hdE : ∀ s v r, d s = some (.ok (v, r)) →
      ∃ c, s = c ++ r ∧ ∀ u, d (c ++ u) = some (.ok (v, u)))
    (hdErr : ∀ s e, d s = some (.error e) → e ≠ .truncated →
      ∀ u, d (s ++ u) = some (.error e)) :
    ∀ n s e, decodePairsF d n s = some (.error e) → e ≠ .truncated →
      ∀ u, decodePairsF d n (s ++ u) = some (.error e) := by
  intro n
  induction n with
  | zero => intro s e h; simp [decodePairsF] at h
  | succ n ihn =>
    intro s e h hne u
    simp only [decodePairsF] at h
    cases hds : d s with
    | none => simp [hds] at h
    | some pr =>
      simp only [hds] at h
      cases pr with
      | error e2 =>
        simp only [Option.some.injEq, Except.error.injEq] at h
        subst h
        have := hdErr s e2 hds hne u
        simp only [decodePairsF, this]
      | ok vr =>
        obtain ⟨k, r1⟩ := vr
        cases hds2 : d r1 with
        | none => simp [hds2] at h
        | some pr2 =>
          simp only [hds2] at h
          cases pr2 with
          | error e2 =>
            simp only [Option.some.injEq, Except.error.injEq] at h
            subst h
            obtain ⟨c1, hs1, hall1⟩ := hdE s k r1 hds
            have he2 := hdErr r1 e2 hds2 hne u
            rw [hs1, List.append_assoc]
            simp only [decodePairsF, hall1 (r1 ++ u), he2]
          | ok vr2 =>
            obtain ⟨v, r2⟩ := vr2
            cases hrec : decodePairsF d n r2 with
            | none => simp [hrec] at h
            | some pr3 =>
              simp only [hrec] at h
              cases pr3 with
              | ok vr3 => obtain ⟨ps2, r3⟩ := vr3; simp at h
              | error e2 =>
                simp only [Option.some.injEq, Except.error.injEq] at h
                subst h
                obtain ⟨c1, hs1, hall1⟩ := hdE s k r1 hds
                obtain ⟨c2, hs2, hall2⟩ := hdE r1 v r2 hds2
                have hr := ihn r2 e2 hrec hne u
                rw [hs1, hs2, List.append_assoc, List.append_assoc]
                simp only [decodePairsF, hall1 (c2 ++ (r2 ++ u)), hall2 (r2 ++ u), hr]

theorem decodeSeqPayload_errExtend (d : List Nat → Option (ParseResult Value))
    (hdE : ∀ s v r, d s = some (.ok (v, r)) →
      ∃ c, s = c ++ r ∧ ∀ u, d (c ++ u) = some (.ok (v, u)))
    (hdErr : ∀ s e, d s = some (.error e) → e ≠ .truncated →
      ∀ u, d (s ++ u) = some (.error e))
    (s : List Nat) (e : ParseError) (h : decodeSeqPayload d s = some (.error e))
    (hne : e ≠ .truncated) :
    ∀ u, decodeSeqPayload d (s ++ u) = some (.error e) := by
  unfold decodeSeqPayload at h
  cases hre : readLE 4 s with
  | none =>
    simp only [hre] at h
    simp at h
    exact absurd h.symm hne
  | some nr =>
    obtain ⟨n, rr⟩ := nr
    simp only [hre] at h
    cases hll : decodeListF d n rr with
    | none => simp [hll] at h
    | some pr =>
      simp only [hll] at h
      cases pr with
      | ok vr => obtain ⟨vs, r2⟩ := vr; simp at h
      | error e2 =>
        simp only [Option.some.injEq, Except.error.injEq] at h
        subst h
        intro u
        obtain ⟨c1, hs, hc1, hall⟩ := readLE_split 4 s n rr hre
        have he := decodeListF_errExtend d hdE hdErr n rr e2 hll hne u
        unfold decodeSeqPayload
        rw [hs, List.append_assoc, hall (rr ++ u)]
        simp only [he]

theorem decodeMapPayload_errExtend (d : List Nat → Option (ParseResult Value))
    (hdE : ∀ s v r, d s = some (.ok (v, r)) →
      ∃ c, s = c ++ r ∧ ∀ u, d (c ++ u) = some (.ok (v, u)))
    (hdErr : ∀ s e, d s = some (.error e) → e ≠ .truncated →
      ∀ u, d (s ++ u) = some (.error e))
    (s : List Nat) (e : ParseError) (h : decodeMapPayload d s = some (.error e))
    (hne : e ≠ .truncated) :
    ∀ u, decodeMapPayload d (s ++ u) = some (.error e) := by
  unfold decodeMapPayload at h
  cases hre : readLE 4 s with
  | none =>
    simp only [hre] at h
    simp at h
    exact absurd h.symm hne
  | some nr =>
    obtain ⟨n, rr⟩ := nr
    simp only [hre] at h
    cases hll : decodePairsF d n rr with
    | none => simp [hll] at h
    | some pr =>
      simp only [hll] at h
      cases pr with
      | ok vr => obtain ⟨ps, r2⟩ := vr; simp at h
      | error e2 =>
        simp only [Option.some.injEq, Except.error.injEq] at h
        subst h
        intro u
        obtain ⟨c1, hs, hc1, hall⟩ := readLE_split 4 s n rr hre
        have he := decodePairsF_errExtend d hdE hdErr n rr e2 hll hne u
        unfold decodeMapPayload
        rw [hs, List.append_assoc, hall (rr ++ u)]
        simp only [he]

theorem decodeHead_errExtend (d : List Nat → Option (ParseResult Value))
    (hdE : ∀ s v r, d s = some (.ok (v, r)) →
      ∃ c, s = c ++ r ∧ ∀ u, d (c ++ u) = some (.ok (v, u)))
    (hdErr : ∀ s e, d s = some (.error e) → e ≠ .truncated →
      ∀ u, d (s ++ u) = some (.error e))
    (t : Nat) (s : List Nat) (e : ParseError) (h : decodeHead d t s = some (.error e))
    (hne : e ≠ .truncated) :
    ∀ u, decodeHead d t (s ++ u) = some (.error e) := by
  by_cases h0 : t = 0
  · subst h0; rw [decodeHead_tag0] at h; simp at h
  by_cases h1 : t = 1
  · subst h1; rw [decodeHead_tag1] at h; simp at h
  by_cases h2 : t = 2
  · subst h2; rw [decodeHead_tag2] at h; simp at h
  by_cases h3 : t = 3
  · subst h3; rw [decodeHead_tag3] at h
    exact absurd (readIntPayload_error 1 8 s e (Option.some.inj h)) hne
  by_cases h4 : t = 4
  · subst h4; rw [decodeHead_tag4] at h
    exact absurd (readIntPayload_error 2 16 s e (Option.some.inj h)) hne
  by_cases h5 : t = 5
  · subst h5; rw [decodeHead_tag5] at h
    exact absurd (readIntPayload_error 4 32 s e (Option.some.inj h)) hne
  by_cases h6 : t = 6
  · subst h6; rw [decodeHead_tag6] at h
    exact absurd (readIntPayload_error 8 64 s e (Option.some.inj h)) hne
  by_cases h7 : t = 7
  · subst h7; rw [decodeHead_tag7] at h
    exact absurd (readFloatPayload_error s e (Option.some.inj h)) hne
  by_cases h8 : t = 8
  · subst h8; rw [decodeHead_tag8] at h
    exact absurd (readBytesPayload_error s e (Option.some.inj h)) hne
  by_cases h9 : t = 9
  · subst h9
    rw [decodeHead_tag9] at h
    rcases readTextPayload_error s e (Option.some.inj h) with he | he
    · exact absurd he hne
    · subst he
      intro u
      rw [decodeHead_tag9, readTextPayload_errExtend s (Option.some.inj h) u]
  by_cases h10 : t = 10
  · subst h10
    rw [decodeHead_tag10] at h
    intro u
    rw [decodeHead_tag10]
    exact decodeSeqPayload_errExtend d hdE hdErr s e h hne u
  by_cases h11 : t = 11
  · subst h11
    rw [decodeHead_tag11] at h
    intro u
    rw [decodeHead_tag11]
    exact decodeMapPayload_errExtend d hdE hdErr s e h hne u
  rw [decodeHead_unknown d t s (by omega)] at h
  simp only [Option.some.injEq, Except.error.injEq] at h
  subst h
  intro u
  rw [decodeHead_unknown d t (s ++ u) (by omega)]

theorem decodeValueF_errExtend :
    ∀ f s e, decodeValueF f s = some (.error e) → e ≠ .truncated →
      ∀ u, decodeValueF f (s ++ u) = some (.error e) := by
  intro f
  induction f with
  | zero => intro s e h; simp [decodeValueF] at h
  | succ f ihf =>
    intro s e h hne u
    cases s with
    | nil =>
      simp only [decodeValueF, Option.some.injEq, Except.error.injEq] at h
      exact absurd h.symm hne
    | cons t s0 =>
      rw [decodeValueF_cons] at h
      rw [List.cons_append, decodeValueF_cons]
      exact decodeHead_errExtend (decodeValueF f)
        (fun s2 v2 r2 hh => (decodeValueF_extend f s2 v2 r2 hh).elim
          (fun c hc => ⟨c, hc.2.1, hc.2.2⟩))
        ihf t s0 e h hne u


/-! ## Top-level decode characterization -/

theorem decode_run (f : Nat) (s : List Nat) (x : ParseResult Value)
    (h : decodeValueF f s = some x) :
    decode s = match x with
      | .error .truncated => .error .TruncatedInput
      | .error .unknownTag => .error .UnknownTag
      | .error .invalidText => .error .InvalidText
      | .ok (v, []) => .ok v
      | .ok (_, _ :: _) => .error .TrailingData := by
  have ht := decodeValueF_total (s.length + 1) s (by omega)
  unfold decode
  cases hx : decodeValueF (s.length + 1) s with
  | none => exact absurd hx ht
  | some y =>
    have hxy := decodeValueF_det f (s.length + 1) s x y h hx
    subst hxy
    cases x with
    | error e => cases e <;> rfl
    | ok vr =>
      obtain ⟨v, r⟩ := vr
      cases r <;> rfl

theorem decode_run_truncated (f : Nat) (s : List Nat)
    (hx : decodeValueF f s = some (.error .truncated)) :
    decode s = .error .TruncatedInput := decode_run f s _ hx

theorem decode_run_unknown (f : Nat) (s : List Nat)
    (hx : decodeValueF f s = some (.error .unknownTag)) :
    decode s = .error .UnknownTag := decode_run f s _ hx

theorem decode_run_invalid (f : Nat) (s : List Nat)
    (hx : decodeValueF f s = some (.error .invalidText)) :
    decode s = .error .InvalidText := decode_run f s _ hx

theorem decode_run_ok_nil (f : Nat) (s : List Nat) (v : Value)
    (hx : decodeValueF f s = some (.ok (v, []))) :
    decode s = .ok v := decode_run f s _ hx

theorem decode_run_ok_cons (f : Nat) (s : List Nat) (v : Value) (a : Nat) (l : List Nat)
    (hx : decodeValueF f s = some (.ok (v, a :: l))) :
    decode s = .error .TrailingData := decode_run f s _ hx

/-! ## Clean task lemmas -/

theorem removeTarget_eq_filter (isdir : String → Bool) (p : String) (fs : List String) :
    removeTarget isdir p fs =
      fs.filter (fun f => !(f == p || (isdir p && underDir f p))) := by
  unfold removeTarget
  split_ifs with hd <;> simp [hd]

theorem mem_removeTargets (isdir : String → Bool) (f : String) (fs : List String) :
    f ∈ removeTargets isdir fs ↔ f ∈ fs ∧ hitByTargets isdir f = false := by
  unfold removeTargets hitByTargets cleanTargets
  simp only [List.foldl_cons, List.foldl_nil, removeTarget_eq_filter, List.mem_filter,
    List.any_cons, List.any_nil]
  simp only [Bool.not_eq_true', Bool.or_eq_false_iff, Bool.and_eq_true,
    Bool.and_eq_false_iff]
  tauto

theorem sweepBytecode_subset (remove : String → RemoveResult) :
    ∀ l kept, sweepBytecode remove l = .ok kept → ∀ f, f ∈ kept → f ∈ l := by
  intro l
  induction l with
  | nil =>
    intro kept h f hf
    simp only [sweepBytecode, Except.ok.injEq] at h
    subst h
    simp at hf
  | cons g l ihl =>
    intro kept h f hf
    simp only [sweepBytecode] at h
    by_cases hbg : isBytecode g = true
    · rw [if_pos hbg] at h
      cases hrg : remove g with
      | removed =>
        simp only [hrg] at h
        exact List.mem_cons_of_mem g (ihl kept h f hf)
      | oserror c =>
        simp only [hrg] at h
        by_cases hc : c = EACCES
        · rw [if_pos hc] at h
          cases hsw : sweepBytecode remove l with
          | ok fs2 =>
            simp only [hsw, Except.ok.injEq] at h
            subst h
            rcases List.mem_cons.1 hf with hgf | hfs
            · exact hgf ▸ List.mem_cons_self g l
            · exact List.mem_cons_of_mem g (ihl fs2 hsw f hfs)
          | error e => simp [hsw] at h
        · rw [if_neg hc] at h
          simp at h
    · rw [if_neg hbg] at h
      cases hsw : sweepBytecode remove l with
      | ok fs2 =>
        simp only [hsw, Except.ok.injEq] at h
        subst h
        rcases List.mem_cons.1 hf with hgf | hfs
        · exact hgf ▸ List.mem_cons_self g l
        · exact List.mem_cons_of_mem g (ihl fs2 hsw f hfs)
      | error e => simp [hsw] at h

theorem sweepBytecode_keeps (remove : String → RemoveResult) :
    ∀ l kept, sweepBytecode remove l = .ok kept →
      ∀ f, f ∈ l → isBytecode f = false → f ∈ kept := by
  intro l
  induction l with
  | nil =>
    intro kept h f hf
    simp at hf
  | cons g l ihl =>
    intro kept h f hf hb
    simp only [sweepBytecode] at h
    rcases List.mem_cons.1 hf with hgf | hfs
    · subst hgf
      rw [if_neg (by simp [hb])] at h
      cases hsw : sweepBytecode remove l with
      | ok fs2 =>
        simp only [hsw, Except.ok.injEq] at h
        subst h
        exact List.mem_cons_self f fs2
      | error e => simp [hsw] at h
    · by_cases hbg : isBytecode g = true
      · rw [if_pos hbg] at h
        cases hrg : remove g with
        | removed =>
          simp only [hrg] at h
          exact ihl kept h f hfs hb
        | oserror c =>
          simp only [hrg] at h
          by_cases hc : c = EACCES
          · rw [if_pos hc] at h
            cases hsw : sweepBytecode remove l with
            | ok fs2 =>
              simp only [hsw, Except.ok.injEq] at h
              subst h
              exact List.mem_cons_of_mem g (ihl fs2 hsw f hfs hb)
            | error e => simp [hsw] at h
          · rw [if_neg hc] at h
            simp at h
      · rw [if_neg hbg] at h
        cases hsw : sweepBytecode remove l with
        | ok fs2 =>
          simp only [hsw, Except.ok.injEq] at h
          subst h
          exact List.mem_cons_of_mem g (ihl fs2 hsw f hfs hb)
        | error e => simp [hsw] at h

theorem sweepBytecode_removes_only (remove : String → RemoveResult)
    (l kept : List String) (h : sweepBytecode remove l = .ok kept)
    (f : String) (hf : f ∈ l) (hnot : f ∉ kept) : isBytecode f = true := by
  cases hb : isBytecode f with
  | true => rfl
  | false => exact absurd (sweepBytecode_keeps remove l kept h f hf hb) hnot

/-! ## Claim theorems -/

/-- C1: for every valid Value v constructible from the closed variant set,
decode (encode v) equals v under structural equality: same variant, same
scalar value including exact float bit patterns and exact integer value,
same Sequence order, same Mapping key and value pairs. -/
theorem claim_roundtrip (v : Value) (hv : Value.validb v = true) :
    decode (encode v) = .ok v :=
  decode_encode v hv

theorem claim_roundtrip_witness :
    Value.validb (Value.seq [Value.nil, Value.bool true, Value.int (-5),
      Value.float 4607182418800017408, Value.bytes [0, 255],
      Value.text [72, 8364, 119070], Value.map [(Value.int 1, Value.text [97])]]) = true ∧
    decode (encode (Value.seq [Value.nil, Value.bool true, Value.int (-5),
      Value.float 4607182418800017408, Value.bytes [0, 255],
      Value.text [72, 8364, 119070], Value.map [(Value.int 1, Value.text [97])]])) =
      .ok (Value.seq [Value.nil, Value.bool true, Value.int (-5),
      Value.float 4607182418800017408, Value.bytes [0, 255],
      Value.text [72, 8364, 119070], Value.map [(Value.int 1, Value.text [97])]]) :=
  ⟨rfl, claim_roundtrip _ rfl⟩

/-- C2: encode is deterministic: two calls of encode on an unchanged,
structurally equal Value produce byte-identical output; the encoder is a
pure function of the Value with no randomized padding and no reordering. -/
theorem claim_encode_deterministic (v w : Value) (h : v = w) :
    encode v = encode w := by
  rw [h]

theorem claim_encode_deterministic_witness :
    encode (Value.int 5) = encode (Value.int 5) :=
  claim_encode_deterministic (Value.int 5) (Value.int 5) rfl

/-- C3: for every input byte sequence, decode either fully succeeds and
returns a complete Value, or fails with exactly one of TruncatedInput,
UnknownTag, InvalidText or TrailingData; no partial result is returned. -/
theorem claim_decode_error_taxonomy (b : List Nat) :
    (∃ v, decode b = .ok v) ∨ decode b = .error .TruncatedInput ∨
    decode b = .error .UnknownTag ∨ decode b = .error .InvalidText ∨
    decode b = .error .TrailingData := by
  cases hx : decode b with
  | ok v => exact .inl ⟨v, rfl⟩
  | error e =>
    cases e with
    | TruncatedInput => exact .inr (.inl rfl)
    | UnknownTag => exact .inr (.inr (.inl rfl))
    | InvalidText => exact .inr (.inr (.inr (.inl rfl)))
    | TrailingData => exact .inr (.inr (.inr (.inr rfl)))

theorem claim_decode_error_taxonomy_witness :
    (∃ v, decode [99] = .ok v) ∨ decode [99] = .error .TruncatedInput ∨
    decode [99] = .error .UnknownTag ∨ decode [99] = .error .InvalidText ∨
    decode [99] = .error .TrailingData :=
  claim_decode_error_taxonomy [99]

/-- C4: decode consumes the entire input as exactly one Value: whenever a
complete top-level Value parses with bytes remaining, decode fails with
TrailingData; in particular encode Nil followed by one extra byte fails
decode with TrailingData. -/
theorem claim_trailing_data :
    (∀ s v r, (∃ f, decodeValueF f s = some (.ok (v, r))) → r ≠ [] →
      decode s = .error .TrailingData) ∧
    (∀ b : Nat, decode (encode .nil ++ [b]) = .error .TrailingData) := by
  constructor
  · rintro s v r ⟨f, hf⟩ hr
    cases r with
    | nil => exact absurd rfl hr
    | cons a l => exact decode_run_ok_cons f s v a l hf
  · intro b
    exact decode_run_ok_cons 2 _ .nil b [] rfl

theorem claim_trailing_data_witness :
    decode (encode Value.nil ++ [7]) = .error .TrailingData :=
  claim_trailing_data.2 7

/-- C5: narrowest-fit integer encoding: for every integer in the supported
64-bit range the encoder emits the tag of the smallest fixed-width class
whose range exactly contains the value, the decoder sign-extends back to
the exact original integer, and the integers 0, 127, 128, 32767, 32768,
2147483647, 2147483648 and -1 select the documented minimal widths. -/
theorem claim_narrowest_fit :
    (∀ n : ℤ, -9223372036854775808 ≤ n → n < 9223372036854775808 →
      (encode (.int n)).head? = some (intTagOfWidth (intWidth n)) ∧
      fitsWidth (intWidth n) n ∧
      (∀ w, w = 8 ∨ w = 16 ∨ w = 32 ∨ w = 64 → fitsWidth w n → intWidth n ≤ w) ∧
      decode (encode (.int n)) = .ok (.int n)) ∧
    intWidth 0 = 8 ∧ intWidth 127 = 8 ∧ intWidth 128 = 16 ∧ intWidth 32767 = 16 ∧
    intWidth 32768 = 32 ∧ intWidth 2147483647 = 32 ∧ intWidth 2147483648 = 64 ∧
    intWidth (-1) = 8 := by
  constructor
  · intro n h1 h2
    refine ⟨?_, ?_, ?_, ?_⟩
    · show (intTagOfWidth (intWidth n) ::
        natLE (intWidth n / 8) (intToTwos (intWidth n) n)).head? = _
      rfl
    · unfold intWidth fitsWidth
      split_ifs with a b c <;> norm_num <;> omega
    · intro w hw hf
      unfold fitsWidth at hf
      unfold intWidth
      rcases hw with rfl | rfl | rfl | rfl <;> norm_num at hf <;> split_ifs <;> omega
    · refine decode_encode (.int n) ?_
      simp only [Value.validb, Bool.and_eq_true, decide_eq_true_eq]
      omega
  · refine ⟨?_, ?_, ?_, ?_, ?_, ?_, ?_, ?_⟩ <;> norm_num [intWidth]

theorem claim_narrowest_fit_witness :
    decode (encode (Value.int 0)) = .ok (Value.int 0) ∧
    decode (encode (Value.int 127)) = .ok (Value.int 127) ∧
    decode (encode (Value.int 128)) = .ok (Value.int 128) ∧
    decode (encode (Value.int 32767)) = .ok (Value.int 32767) ∧
    decode (encode (Value.int 32768)) = .ok (Value.int 32768) ∧
    decode (encode (Value.int 2147483647)) = .ok (Value.int 2147483647) ∧
    decode (encode (Value.int 2147483648)) = .ok (Value.int 2147483648) ∧
    decode (encode (Value.int (-1))) = .ok (Value.int (-1)) :=
  ⟨(claim_narrowest_fit.1 0 (by norm_num) (by norm_num)).2.2.2,
   (claim_narrowest_fit.1 127 (by norm_num) (by norm_num)).2.2.2,
   (claim_narrowest_fit.1 128 (by norm_num) (by norm_num)).2.2.2,
   (claim_narrowest_fit.1 32767 (by norm_num) (by norm_num)).2.2.2,
   (claim_narrowest_fit.1 32768 (by norm_num) (by norm_num)).2.2.2,
   (claim_narrowest_fit.1 2147483647 (by norm_num) (by norm_num)).2.2.2,
   (claim_narrowest_fit.1 2147483648 (by norm_num) (by norm_num)).2.2.2,
   (claim_narrowest_fit.1 (-1) (by norm_num) (by norm_num)).2.2.2⟩

/-- C6: truncation failure is monotone: when decode fails with
TruncatedInput on a byte sequence, decoding any strictly shorter prefix of
that sequence also fails with TruncatedInput. -/
theorem claim_truncation_monotone (s p q : List Nat) (hs : s = p ++ q)
    (hq : q ≠ []) (h : decode s = .error .TruncatedInput) :
    decode p = .error .TruncatedInput := by
  subst hs
  have ht := decodeValueF_total ((p ++ q).length + 1) (p ++ q) (by omega)
  cases hx : decodeValueF ((p ++ q).length + 1) (p ++ q) with
  | none => exact absurd hx ht
  | some x =>
    have hxe : x = .error .truncated := by
      cases x with
      | error e =>
        cases e with
        | truncated => rfl
        | unknownTag =>
          have h2 := decode_run_unknown _ _ hx
          rw [h] at h2
          simp at h2
        | invalidText =>
          have h2 := decode_run_invalid _ _ hx
          rw [h] at h2
          simp at h2
      | ok vr =>
        obtain ⟨v, r⟩ := vr
        cases r with
        | nil =>
          have h2 := decode_run_ok_nil _ _ _ hx
          rw [h] at h2
          simp at h2
        | cons a l =>
          have h2 := decode_run_ok_cons _ _ _ _ _ hx
          rw [h] at h2
          simp at h2
    subst hxe
    have htp := decodeValueF_total (p.length + 1) p (by omega)
    cases hpx : decodeValueF (p.length + 1) p with
    | none => exact absurd hpx htp
    | some y =>
      cases y with
      | ok vr =>
        obtain ⟨v, r⟩ := vr
        obtain ⟨c, hcne, hcp, hall⟩ := decodeValueF_extend (p.length + 1) p v r hpx
        have h2 := hall (r ++ q)
        rw [show c ++ (r ++ q) = p ++ q from by rw [← List.append_assoc, ← hcp]] at h2
        have hdet := decodeValueF_det _ _ _ _ _ h2 hx
        simp at hdet
      | error e =>
        by_cases he : e = .truncated
        · subst he
          exact decode_run_truncated (p.length + 1) p hpx
        · have h2 := decodeValueF_errExtend (p.length + 1) p e hpx he q
          have hdet := decodeValueF_det _ _ _ _ _ h2 hx
          simp only [Except.error.injEq] at hdet
          exact absurd hdet he

theorem claim_truncation_monotone_witness :
    decode ([8, 5, 0, 0, 0] : List Nat) = .error .TruncatedInput ∧
    decode ([8, 5, 0] : List Nat) = .error .TruncatedInput :=
  ⟨rfl, claim_truncation_monotone [8, 5, 0, 0, 0] [8, 5, 0] [0, 0] rfl (by simp) rfl⟩

/-- C7: the build configuration declares exactly one compiled extension
module, named wbin, built from the single C source file wbin.c. -/
theorem claim_single_extension :
    wirebinSetup.ext_modules.length = 1 ∧
    wirebinSetup.ext_modules.map ExtModule.name = ["wbin"] ∧
    wirebinSetup.ext_modules.map ExtModule.sources = [["wbin.c"]] :=
  ⟨rfl, rfl, rfl⟩

/-- C8: every invocation of the manifest task overwrites MANIFEST.in so
that it contains exactly the four include lines for LICENSE, setup.py,
paver-minilib.zip and wbin.c, in that order, regardless of any prior
contents. -/
theorem claim_manifest_lines (old : List String) :
    manifestTask old = ["include LICENSE", "include setup.py",
      "include paver-minilib.zip", "include wbin.c"] ∧
    (manifestTask old).length = 4 :=
  ⟨rfl, rfl⟩

theorem claim_manifest_lines_witness :
    manifestTask ["stale"] = ["include LICENSE", "include setup.py",
      "include paver-minilib.zip", "include wbin.c"] ∧
    (manifestTask ["stale"]).length = 4 :=
  claim_manifest_lines ["stale"]

/-- C9: during the bytecode sweep of the clean task, an OSError whose first
argument equals errno.EACCES is suppressed and the sweep continues with the
next file, while an OSError with any other code propagates out. -/
theorem claim_sweep_eacces (remove : String → RemoveResult) (f : String)
    (rest : List String) (c : Nat) (hb : isBytecode f = true)
    (hr : remove f = .oserror c) :
    (c = EACCES → sweepBytecode remove (f :: rest) =
      (sweepBytecode remove rest).map (fun fs => f :: fs)) ∧
    (c ≠ EACCES → sweepBytecode remove (f :: rest) = .error c) := by
  constructor
  · intro hc
    subst hc
    simp only [sweepBytecode, hb, if_true, hr, if_pos rfl]
    cases hsw : sweepBytecode remove rest <;> simp [hsw, Except.map]
  · intro hc
    simp [sweepBytecode, hb, hr, hc]

theorem claim_sweep_eacces_witness :
    sweepBytecode (fun _ => RemoveResult.oserror 13) ["a.pyc"] =
      (sweepBytecode (fun _ => RemoveResult.oserror 13) []).map
        (fun fs => "a.pyc" :: fs) ∧
    sweepBytecode (fun _ => RemoveResult.oserror 1) ["a.pyc"] = .error 1 :=
  ⟨(claim_sweep_eacces (fun _ => RemoveResult.oserror 13) "a.pyc" [] 13 rfl rfl).1 rfl,
   (claim_sweep_eacces (fun _ => RemoveResult.oserror 1) "a.pyc" [] 1 rfl rfl).2
     (by simp [EACCES])⟩

/-- C10: the clean task deletes only the four fixed target paths, each
recursively when a directory, plus bytecode files under the pavement
directory; every other file survives the task unchanged. -/
theorem claim_clean_frame (pav : String) (isdir : String → Bool)
    (remove : String → RemoveResult) (fs fs2 : List String)
    (hclean : cleanTask pav isdir remove fs = .ok fs2) (f : String) (hf : f ∈ fs) :
    (f ∉ fs2 → hitByTargets isdir f = true ∨
      (underDir f pav = true ∧ isBytecode f = true)) ∧
    (hitByTargets isdir f = false →
      (underDir f pav = false ∨ isBytecode f = false) → f ∈ fs2) := by
  simp only [cleanTask] at hclean
  cases hsw : sweepBytecode remove
      ((removeTargets isdir fs).filter (fun x => underDir x pav)) with
  | error e => rw [hsw] at hclean; simp at hclean
  | ok kept =>
    rw [hsw] at hclean
    simp only [Except.ok.injEq] at hclean
    subst hclean
    constructor
    · intro hnot
      by_cases hhit : hitByTargets isdir f = true
      · exact .inl hhit
      · right
        have hf1 : f ∈ removeTargets isdir fs :=
          (mem_removeTargets isdir f fs).2 ⟨hf, by simpa using hhit⟩
        rw [List.mem_append] at hnot
        push_neg at hnot
        obtain ⟨hnot1, hnot2⟩ := hnot
        by_cases hu : underDir f pav = true
        · have hmem : f ∈ (removeTargets isdir fs).filter (fun x => underDir x pav) := by
            simp [List.mem_filter, hf1, hu]
          exact ⟨hu, sweepBytecode_removes_only remove _ kept hsw f hmem hnot2⟩
        · exfalso
          apply hnot1
          simp only [List.mem_filter]
          refine ⟨hf1, ?_⟩
          simpa using hu
    · intro hhit hor
      have hf1 : f ∈ removeTargets isdir fs :=
        (mem_removeTargets isdir f fs).2 ⟨hf, hhit⟩
      rw [List.mem_append]
      by_cases hu : underDir f pav = true
      · right
        have hb : isBytecode f = false := by
          rcases hor with h | h
          · rw [hu] at h
            simp at h
          · exact h
        have hmem : f ∈ (removeTargets isdir fs).filter (fun x => underDir x pav) := by
          simp [List.mem_filter, hf1, hu]
        exact sweepBytecode_keeps remove _ kept hsw f hmem hb
      · left
        simp only [List.mem_filter]
        refine ⟨hf1, ?_⟩
        simpa using hu

theorem claim_clean_frame_witness :
    cleanTask "p" (fun _ => false) (fun _ => RemoveResult.removed)
      ["p/wbin.c", "p/a.pyc"] = .ok ["p/wbin.c"] ∧
    "p/wbin.c" ∈ (["p/wbin.c"] : List String) :=
  ⟨rfl, (claim_clean_frame "p" (fun _ => false) (fun _ => RemoveResult.removed)
    ["p/wbin.c", "p/a.pyc"] ["p/wbin.c"] rfl "p/wbin.c" (by simp)).2 rfl
    (Or.inr rfl)⟩


end Wirebin
